import Mathlib

set_option maxHeartbeats 1000000

/-!
Shallow embedding of the title-extraction core of the repository
(`data_processing/extract_title.py` and the citation normalizer of
`data_processing/build_ground_truth.py`), together with theorems checking
the specification's claims about it.

Strings are modelled over ASCII: the helpers below implement the Python
string and regex primitives (`strip`, `lower`, `split(None, n)`, the
character classes `\s`, `\w`, `[0-9A-Za-z]`) for the ASCII fragment the
corpus uses.  Recursive scanners that are not structurally recursive are
written with an explicit fuel argument equal to the input length, so every
definition evaluates by kernel reduction.
-/

namespace Smc

/-- Python regex `\s` / `str.strip` whitespace class, ASCII fragment. -/
def isPySpace (c : Char) : Bool :=
  c = ' ' || c = '\t' || c = '\n' || c = '\r' || c = '\x0b' || c = '\x0c'

/-- Regex character class `[0-9A-Za-z]`. -/
def isAsciiAlnum (c : Char) : Bool := c.isAlpha || c.isDigit

/-- Regex character class `\w`, ASCII fragment. -/
def isWordChar (c : Char) : Bool := isAsciiAlnum c || c = '_'

/-- ASCII lower-casing of a character, as Python `str.lower` does on ASCII. -/
def charLower (c : Char) : Char :=
  if 'A' ≤ c ∧ c ≤ 'Z' then Char.ofNat (c.toNat + 32) else c

/-- ASCII upper-casing of a character, as Python `str.upper` does on ASCII. -/
def charUpper (c : Char) : Char :=
  if 'a' ≤ c ∧ c ≤ 'z' then Char.ofNat (c.toNat - 32) else c

/-- Python `str.lower` (ASCII fragment). -/
def pyLower (s : String) : String := ⟨s.data.map charLower⟩

/-- Python `str.upper` (ASCII fragment). -/
def pyUpper (s : String) : String := ⟨s.data.map charUpper⟩

/-- Python `str.strip()`: drop leading and trailing whitespace. -/
def pyStrip (s : String) : String :=
  ⟨((s.data.dropWhile isPySpace).reverse.dropWhile isPySpace).reverse⟩

/-- Python `str.startswith` on ASCII strings. -/
def strStarts (s pat : String) : Bool := s.data.take pat.data.length == pat.data

/-- Python `"\n".join`. -/
def joinLines : List String → String
  | [] => ""
  | [x] => x
  | x :: y :: rest => x ++ "\n" ++ joinLines (y :: rest)

/-- Fuel-driven core of `condenseWs`; fuel ≥ input length makes it total. -/
def condenseAux : Nat → List Char → List Char
  | 0, _ => []
  | _ + 1, [] => []
  | fuel + 1, c :: rest =>
    if isPySpace c then ' ' :: condenseAux fuel (rest.dropWhile isPySpace)
    else c :: condenseAux fuel rest

/-- Python `re.sub(r"\s+", " ", line)`: collapse every whitespace run to one
    space. -/
def condenseWs (s : String) : String := ⟨condenseAux s.data.length s.data⟩

/-- Python `s.split(None, maxsplit)` on character lists: leading whitespace is
    skipped, whitespace runs separate tokens, and once `maxsplit` splits were
    made the remainder (with its internal and trailing whitespace) is the last
    element. -/
def pySplitAux : Nat → List Char → List (List Char)
  | 0, cs =>
    let cs := cs.dropWhile isPySpace
    if cs.isEmpty then [] else [cs]
  | m + 1, cs =>
    let cs := cs.dropWhile isPySpace
    if cs.isEmpty then []
    else
      (cs.takeWhile (fun c => !isPySpace c)) ::
        pySplitAux m (cs.dropWhile (fun c => !isPySpace c))

/-- Python `line.split(None, 2)`. -/
def pySplit2 (s : String) : List String :=
  (pySplitAux 2 s.data).map (fun cs => ⟨cs⟩)

/-- Match a literal pattern (case sensitive) at the head of `cs`, returning the
    rest of the input on success. -/
def stripLit : List Char → List Char → Option (List Char)
  | [], cs => some cs
  | _ :: _, [] => none
  | p :: ps, c :: cs => if p = c then stripLit ps cs else none

/-- Match a literal pattern case-insensitively at the head of `cs`, returning
    the rest of the input on success. -/
def stripCI : List Char → List Char → Option (List Char)
  | [], cs => some cs
  | _ :: _, [] => none
  | p :: ps, c :: cs => if charLower p = charLower c then stripCI ps cs else none

/-!  ## Data model (`extract_title.py`, dataclasses) -/

structure Section where
  citation : String
  heading : String
  start_page : Nat
  end_page : Nat
  body_lines : List String
deriving Repr, DecidableEq

structure Chapter where
  citation : String
  title : String
  start_page : Nat
  end_page : Nat
  intro_lines : List String
  sections : List Section
deriving Repr, DecidableEq

structure Division where
  number : String
  title : String
  start_page : Nat
  end_page : Nat
  intro_lines : List String
  chapters : List Chapter
deriving Repr, DecidableEq

structure Subtitle where
  number : String
  title : String
  start_page : Nat
  end_page : Nat
  intro_lines : List String
  divisions : List Division
  chapters : List Chapter
deriving Repr, DecidableEq

structure TitleData where
  label : String
  number : Nat
  start_page : Nat
  end_page : Nat
  preface_lines : List String
  subtitles : List Subtitle
deriving Repr, DecidableEq

/-- `Section.has_body`: some body line is non-blank after stripping. -/
def Section.has_body (s : Section) : Bool :=
  s.body_lines.any (fun l => !(pyStrip l).isEmpty)

/-- The `text` field of `Section.to_dict`: body lines joined by newlines and
    stripped. -/
def sectionText (s : Section) : String := pyStrip (joinLines s.body_lines)

/-!  ## Heading matchers (`parse_subtitle_line`, `compile_heading_patterns`,
     `DIVISION_PATTERN`) -/

/-- Python `re.sub(r"[.\-]+$", "", s)`: drop a trailing run of dots/dashes. -/
def dropTrailingDotsDashes (s : String) : String :=
  ⟨(s.data.reverse.dropWhile (fun c => c = '.' || c = '-')).reverse⟩

/-- Roman-numeral character (either case). -/
def isRomanChar (c : Char) : Bool :=
  let u := charUpper c
  u = 'I' || u = 'V' || u = 'X' || u = 'L' || u = 'C' || u = 'D' || u = 'M'

/-- Python `re.fullmatch(r"[IVXLCDM]+(?:[A-Z])?", token, re.IGNORECASE)`:
    one or more roman letters optionally followed by one further letter. -/
def romanTokenMatch (s : String) : Bool :=
  let cs := s.data
  (!cs.isEmpty && cs.all isRomanChar) ||
    (!cs.dropLast.isEmpty && cs.dropLast.all isRomanChar &&
      (match cs.getLast? with
       | some c => c.isAlpha
       | none => false))

/-- First character is a lowercase letter (Python `s[0].islower()` on ASCII). -/
def firstCharIsLower (s : String) : Bool :=
  match s.data with
  | c :: _ => c.isLower
  | [] => false

/-- `parse_subtitle_line`: parse a subtitle header such as
    `Subtitle I Construction Codes` into its canonical number and title. -/
def parse_subtitle_line (line : String) : Option (String × String) :=
  if !strStarts (pyLower line) "subtitle" then none
  else
    match pySplit2 line with
    | _ :: p1 :: rest =>
      let number_token := dropTrailingDotsDashes p1
      if !romanTokenMatch number_token then none
      else
        let subtitle_number := "Subtitle " ++ pyUpper number_token
        let subtitle_title :=
          match rest with
          | [t] => pyStrip t
          | _ => ""
        if (!subtitle_title.isEmpty) && firstCharIsLower subtitle_title then none
        else some (subtitle_number, subtitle_title)
    | _ => none

/-- `DIVISION_PATTERN`: `^Division\s+(\d+)\s+(.*)$` (ignorecase), applied with
    `re.match`.  Character classes are disjoint, so greedy matching without
    backtracking is exact. -/
def divisionMatch (line : String) : Option (String × String) :=
  match stripCI "division".data line.data with
  | none => none
  | some cs =>
    if (cs.takeWhile isPySpace).isEmpty then none
    else
      let cs := cs.dropWhile isPySpace
      let ds := cs.takeWhile Char.isDigit
      if ds.isEmpty then none
      else
        let cs := cs.dropWhile Char.isDigit
        if (cs.takeWhile isPySpace).isEmpty then none
        else some (⟨ds⟩, ⟨cs.dropWhile isPySpace⟩)

/-- Citation tail of the chapter patterns: `\.[0-9A-Za-z]+` followed by the
    required whitespace separator, returning (alnum run, rest-after-citation). -/
def chapterCitTail : List Char → Option (List Char × List Char)
  | [] => none
  | c :: cs =>
    if c = '.' then
      let seg := cs.takeWhile isAsciiAlnum
      if seg.isEmpty then none else some (seg, cs.dropWhile isAsciiAlnum)
    else none

/-- `chapter_full`: `^\s*Chapter\s+({n}\.[0-9A-Za-z]+)\s+(.*)$` (ignorecase). -/
def chapterFullMatch (tn : Nat) (line : String) : Option (String × String) :=
  let cs := line.data.dropWhile isPySpace
  match stripCI "chapter".data cs with
  | none => none
  | some cs =>
    if (cs.takeWhile isPySpace).isEmpty then none
    else
      let cs := cs.dropWhile isPySpace
      match stripLit (toString tn).data cs with
      | none => none
      | some cs =>
        match chapterCitTail cs with
        | none => none
        | some (seg, rest) =>
          if (rest.takeWhile isPySpace).isEmpty then none
          else
            some (toString tn ++ "." ++ ⟨seg⟩, ⟨rest.dropWhile isPySpace⟩)

/-- `chapter_short`: `^\s*Chapter\s+({n}\.[0-9A-Za-z]+)\s*$` — note: compiled
    without `re.IGNORECASE`, so `Chapter` is matched case-sensitively. -/
def chapterShortMatch (tn : Nat) (line : String) : Option String :=
  let cs := line.data.dropWhile isPySpace
  match stripLit "Chapter".data cs with
  | none => none
  | some cs =>
    if (cs.takeWhile isPySpace).isEmpty then none
    else
      let cs := cs.dropWhile isPySpace
      match stripLit (toString tn).data cs with
      | none => none
      | some cs =>
        match chapterCitTail cs with
        | none => none
        | some (seg, rest) =>
          if rest.all isPySpace then some (toString tn ++ "." ++ ⟨seg⟩)
          else none

/-- Fuel-driven scanner for `(?:\.[0-9A-Za-z]+)+` in the section pattern:
    returns (consumed characters, number of `.seg` groups, rest).  Fuel ≥ input
    length suffices since every group consumes at least two characters. -/
def segLoop : Nat → List Char → List Char × Nat × List Char
  | 0, cs => ([], 0, cs)
  | _ + 1, [] => ([], 0, [])
  | fuel + 1, c :: cs2 =>
    if c = '.' then
      let seg := cs2.takeWhile isAsciiAlnum
      if seg.isEmpty then ([], 0, c :: cs2)
      else
        let r := segLoop fuel (cs2.dropWhile isAsciiAlnum)
        ('.' :: (seg ++ r.1), r.2.1 + 1, r.2.2)
    else ([], 0, c :: cs2)

/-- `section_pattern`:
    `^\s*({n}\.[0-9A-Za-z]+(?:\.[0-9A-Za-z]+)+)\s+(.*)$`.  The character
    classes `[0-9A-Za-z]`, `\.` and `\s` are disjoint, so the greedy
    backtracking-free scan below recognizes exactly the same lines. -/
def sectionMatch (tn : Nat) (line : String) : Option (String × String) :=
  let cs := line.data.dropWhile isPySpace
  match stripLit (toString tn).data cs with
  | none => none
  | some cs =>
    match cs with
    | [] => none
    | c :: cs2 =>
      if c = '.' then
        let seg1 := cs2.takeWhile isAsciiAlnum
        if seg1.isEmpty then none
        else
          let rest := cs2.dropWhile isAsciiAlnum
          let r := segLoop rest.length rest
          if r.2.1 = 0 then none
          else
            if (r.2.2.takeWhile isPySpace).isEmpty then none
            else
              some (⟨(toString tn).data ++ '.' :: (seg1 ++ r.1)⟩,
                ⟨r.2.2.dropWhile isPySpace⟩)
      else none

/-- Python `re.match(r"^Subtitle\b", line, re.IGNORECASE)` is not none: the
    literal word `Subtitle` followed by a non-word character or end of line. -/
def subtitleWordStart (line : String) : Bool :=
  match stripCI "subtitle".data line.data with
  | some rest =>
    match rest with
    | [] => true
    | c :: _ => !isWordChar c
  | none => false

/-!  ## HierarchyBuilder state machine (`build_title_structure`) -/

/-- The builder's open-context slots plus the document under construction
    (the nonlocal variables of `build_title_structure`). -/
structure BuilderState where
  title : TitleData
  cur_subtitle : Option Subtitle
  cur_division : Option Division
  cur_chapter : Option Chapter
  cur_section : Option Section
deriving Repr, DecidableEq

/-- `finalize_section`: append the open section to the open chapter (if both
    exist) and clear the section slot. -/
def finalize_section (st : BuilderState) : BuilderState :=
  match st.cur_section, st.cur_chapter with
  | some s, some c =>
    { st with cur_chapter := some { c with sections := c.sections ++ [s] },
              cur_section := none }
  | _, _ => { st with cur_section := none }

/-- `finalize_chapter`: close the section, then attach the open chapter to the
    open division, else the open subtitle, else fold its intro lines into the
    document preface. -/
def finalize_chapter (st : BuilderState) : BuilderState :=
  let st := finalize_section st
  match st.cur_chapter with
  | none => st
  | some c =>
    match st.cur_division with
    | some d =>
      { st with cur_division := some { d with chapters := d.chapters ++ [c] },
                cur_chapter := none }
    | none =>
      match st.cur_subtitle with
      | some sub =>
        { st with
            cur_subtitle := some { sub with chapters := sub.chapters ++ [c] },
            cur_chapter := none }
      | none =>
        { st with
            title := { st.title with
              preface_lines := st.title.preface_lines ++ c.intro_lines },
            cur_chapter := none }

/-- `finalize_division`: close the chapter, then attach the open division to
    the open subtitle (when both exist) and clear the division slot. -/
def finalize_division (st : BuilderState) : BuilderState :=
  let st := finalize_chapter st
  match st.cur_division, st.cur_subtitle with
  | some d, some sub =>
    { st with cur_subtitle := some { sub with divisions := sub.divisions ++ [d] },
              cur_division := none }
  | _, _ => { st with cur_division := none }

/-- `finalize_subtitle`: close the division, then append the open subtitle to
    the document. -/
def finalize_subtitle (st : BuilderState) : BuilderState :=
  let st := finalize_division st
  match st.cur_subtitle with
  | some sub =>
    { st with title := { st.title with subtitles := st.title.subtitles ++ [sub] },
              cur_subtitle := none }
  | none => st

/-- Blank-line transition: append a blank marker to the innermost open node's
    buffer and set that node's `end_page` to the current page; with no open
    node, the blank goes to the document preface. -/
def blankStep (st : BuilderState) (page : Nat) : BuilderState :=
  match st.cur_section with
  | some s =>
    { st with cur_section := some { s with body_lines := s.body_lines ++ [""], end_page := page } }
  | none =>
    match st.cur_chapter with
    | some c =>
      { st with cur_chapter := some { c with intro_lines := c.intro_lines ++ [""], end_page := page } }
    | none =>
      match st.cur_division with
      | some d =>
        { st with cur_division := some { d with intro_lines := d.intro_lines ++ [""], end_page := page } }
      | none =>
        match st.cur_subtitle with
        | some sub =>
          { st with cur_subtitle := some { sub with intro_lines := sub.intro_lines ++ [""], end_page := page } }
        | none =>
          { st with title := { st.title with
              preface_lines := st.title.preface_lines ++ [""] } }

/-- Fallback of the plain-text transition: append the stripped line to the
    innermost open node's buffer and extend its `end_page` to the max of its
    current value and the current page. -/
def appendPlain (st : BuilderState) (line : String) (page : Nat) : BuilderState :=
  match st.cur_section with
  | some s =>
    { st with cur_section := some { s with body_lines := s.body_lines ++ [line], end_page := max s.end_page page } }
  | none =>
    match st.cur_chapter with
    | some c =>
      { st with cur_chapter := some { c with intro_lines := c.intro_lines ++ [line], end_page := max c.end_page page } }
    | none =>
      match st.cur_division with
      | some d =>
        { st with cur_division := some { d with intro_lines := d.intro_lines ++ [line], end_page := max d.end_page page } }
      | none =>
        match st.cur_subtitle with
        | some sub =>
          { st with cur_subtitle := some { sub with intro_lines := sub.intro_lines ++ [line], end_page := max sub.end_page page } }
        | none =>
          { st with title := { st.title with
              preface_lines := st.title.preface_lines ++ [line] } }

/-- Plain-text transition (lines 338–374 of `extract_title.py`): deferred
    subtitle title, deferred chapter title, generic append — in that order. -/
def plainStep (st : BuilderState) (line : String) (page : Nat) : BuilderState :=
  let deferredSub : Bool :=
    match st.cur_subtitle with
    | some sub =>
      sub.title.isEmpty && st.cur_chapter.isNone &&
        !subtitleWordStart line && !strStarts (pyLower line) "chapter "
    | none => false
  if deferredSub && pyLower line != "sections:" then
    match st.cur_subtitle with
    | some sub =>
      { st with cur_subtitle := some { sub with title := line, end_page := max sub.end_page page } }
    | none => st
  else
    let chapTitle : Bool :=
      match st.cur_chapter with
      | some c => c.title.isEmpty && st.cur_section.isNone &&
          pyLower line != "sections:"
      | none => false
    if chapTitle then
      match st.cur_chapter with
      | some c =>
        { st with cur_chapter := some { c with title := line, end_page := max c.end_page page } }
      | none => st
    else appendPlain st line page

/-- Non-blank line transition: try the heading matchers in source order (each
    pattern is tried against the whitespace-condensed line, exactly as the
    Python loop does), falling through to the plain-text handler. -/
def lineStep (tn : Nat) (st : BuilderState) (raw : String) (page : Nat) :
    BuilderState :=
  let line := pyStrip raw
  let condensed := condenseWs line
  match parse_subtitle_line condensed with
  | some (num, tit) =>
    let st := finalize_subtitle st
    { st with
        cur_subtitle := some ⟨num, tit, page, page, [], [], []⟩,
        cur_division := none, cur_chapter := none, cur_section := none }
  | none =>
    match divisionMatch condensed, st.cur_subtitle with
    | some (num, tit), some _ =>
      let st := finalize_division st
      { st with
          cur_division := some ⟨num, pyStrip tit, page, page, [], []⟩,
          cur_chapter := none, cur_section := none }
    | _, _ =>
      match chapterFullMatch tn condensed, chapterShortMatch tn condensed with
      | some (cit, tit), _ =>
        let st := finalize_chapter st
        { st with
            cur_chapter := some ⟨cit, pyStrip tit, page, page, [], []⟩,
            cur_section := none }
      | none, some cit =>
        let st := finalize_chapter st
        { st with
            cur_chapter := some ⟨cit, "", page, page, [], []⟩,
            cur_section := none }
      | none, none =>
        match sectionMatch tn condensed, st.cur_chapter with
        | some (cit, head), some _ =>
          let st := finalize_section st
          { st with cur_section := some ⟨cit, pyStrip head, page, page, []⟩ }
        | _, _ => plainStep st line page

/-- One loop iteration of `build_title_structure`. -/
def step (tn : Nat) (st : BuilderState) (item : Option String × Nat) :
    BuilderState :=
  match item with
  | (none, page) => blankStep st page
  | (some raw, page) => lineStep tn st raw page

/-- Process a line stream. -/
def runLines (tn : Nat) (st : BuilderState) (lines : List (Option String × Nat)) :
    BuilderState :=
  lines.foldl (step tn) st

/-!  ## Deduplication (`clean_title`, `should_replace_section`,
     `should_replace_subtitle`) -/

/-- `should_replace_section`: prefer sections that contain body text;
    otherwise prefer more body lines, then a later (≥) `end_page`. -/
def should_replace_section (existing new : Section) : Bool :=
  if new.has_body && !existing.has_body then true
  else if new.has_body == existing.has_body then
    if existing.body_lines.length < new.body_lines.length then true
    else if existing.end_page ≤ new.end_page then true
    else false
  else false

/-- Structural weight of a subtitle used by `should_replace_subtitle`. -/
def subtitleWeight (sub : Subtitle) : Nat :=
  sub.divisions.length + sub.chapters.length +
    (sub.divisions.map (fun d => d.chapters.length)).sum

/-- `should_replace_subtitle`: prefer more structure, then a later (≥)
    `end_page`. -/
def should_replace_subtitle (existing new : Subtitle) : Bool :=
  if subtitleWeight existing < subtitleWeight new then true
  else if subtitleWeight new == subtitleWeight existing &&
      existing.end_page ≤ new.end_page then true
  else false

/-- Insert a candidate into the deduplicated accumulator: the Python code
    keeps a dict from citation to the index of that citation's unique entry
    and replaces in place, which on a unique-citation accumulator is exactly
    replace-at-first-match, else append. -/
def insertSection (acc : List Section) (s : Section) : List Section :=
  match acc with
  | [] => [s]
  | t :: ts =>
    if t.citation = s.citation then
      if should_replace_section t s then s :: ts else t :: ts
    else t :: insertSection ts s

/-- Section deduplication of one chapter (`clean_title.clean_chapter`'s loop). -/
def dedupSections (sections : List Section) : List Section :=
  sections.foldl insertSection []

/-- `clean_chapter`. -/
def clean_chapter (c : Chapter) : Chapter :=
  { c with sections := dedupSections c.sections }

/-- `clean_subtitle`: dedup the sections of every chapter, inside divisions
    and directly attached. -/
def clean_subtitle (sub : Subtitle) : Subtitle :=
  { sub with
      divisions := sub.divisions.map
        (fun d => { d with chapters := d.chapters.map clean_chapter }),
      chapters := sub.chapters.map clean_chapter }

/-- Insert a subtitle candidate, keyed by lowercased number (`clean_title`'s
    loop, with the same dict-index-to-first-match reading as `insertSection`). -/
def insertSubtitle (acc : List Subtitle) (s : Subtitle) : List Subtitle :=
  match acc with
  | [] => [s]
  | t :: ts =>
    if pyLower t.number = pyLower s.number then
      if should_replace_subtitle t s then s :: ts else t :: ts
    else t :: insertSubtitle ts s

/-- Subtitle deduplication. -/
def dedupSubtitles (subs : List Subtitle) : List Subtitle :=
  subs.foldl insertSubtitle []

/-- Stable insertion into a list sorted by `start_page` (insert strictly
    before the first element with a larger-or-equal key that follows all
    smaller-or-equal keys: equal keys keep their original order). -/
def insSorted (x : Subtitle) : List Subtitle → List Subtitle
  | [] => [x]
  | y :: ys =>
    if y.start_page ≤ x.start_page then y :: insSorted x ys else x :: y :: ys

/-- Stable sort by `start_page` (Python `list.sort(key=...)` is stable;
    insertion sort with the comparison above is the same function). -/
def sortByStartPage (l : List Subtitle) : List Subtitle :=
  l.foldr insSorted []

/-- `clean_title`: dedup sections per chapter, dedup subtitles by
    case-insensitive number, then re-sort subtitles by `start_page`. -/
def clean_title (t : TitleData) : TitleData :=
  { t with subtitles :=
      sortByStartPage (dedupSubtitles (t.subtitles.map clean_subtitle)) }

/-- `build_title_structure`: run the state machine over the line stream,
    finalize everything, then clean the resulting title. -/
def build_title_structure (lines : List (Option String × Nat)) (label : String)
    (tn start_page end_page : Nat) : TitleData :=
  let st0 : BuilderState := ⟨⟨label, tn, start_page, end_page, [], []⟩,
    none, none, none, none⟩
  let st := finalize_subtitle (runLines tn st0 lines)
  clean_title st.title

/-!  ## Citation normalization (`build_ground_truth.py`) -/

/-- Python `re.sub(r"^0+", "", s)`. -/
def dropLeadingZeros (s : String) : String := ⟨s.data.dropWhile (fun c => c = '0')⟩

/-- `build_full_citation`: note that Python `if not section_citation` treats
    the empty string like an absent citation. -/
def build_full_citation (title_number : Nat) (section_citation : Option String) :
    Option String :=
  match section_citation with
  | none => none
  | some s =>
    if s = "" then none
    else
      let citation := pyStrip s
      if strStarts (pyLower citation) "smc" || strStarts (pyLower citation) "title"
          || strStarts (pyLower citation) "chapter" then some citation
      else some ("SMC " ++ dropLeadingZeros citation)

/-!  ## Page-text normalization (`normalize_page_text`) -/

/-- Head of a character list is a word character. -/
def headIsWord : List Char → Bool
  | c :: _ => isWordChar c
  | [] => false

/-- Fuel-driven scanner for `re.sub(r"(?<=\w)-\s*\n\s*(?=\w)", "", text)`:
    a hyphen directly preceded by a word character and followed by a
    whitespace run containing a newline and then a word character is removed
    together with the whole whitespace run.  The classes `\w`, `-` and `\s`
    are disjoint, so this greedy scan is equivalent to the regex
    substitution.  Fuel ≥ input length suffices. -/
def hyphenMergeAux : Nat → List Char → List Char
  | 0, cs => cs
  | _ + 1, [] => []
  | _ + 1, [c] => [c]
  | fuel + 1, c :: d :: rest2 =>
    if isWordChar c && d == '-' then
      let ws := rest2.takeWhile isPySpace
      let after := rest2.dropWhile isPySpace
      if ws.contains '\n' && headIsWord after then c :: hyphenMergeAux fuel after
      else c :: d :: hyphenMergeAux fuel rest2
    else c :: hyphenMergeAux fuel (d :: rest2)

/-- `normalize_page_text`: drop carriage returns, then mend hyphenated line
    breaks. -/
def normalize_page_text (raw : String) : String :=
  if raw = "" then ""
  else
    let text := raw.data.filter (fun c => c ≠ '\r')
    ⟨hyphenMergeAux text.length text⟩

/-!  ## Statement material for the claims -/

/-- The initial builder state of `build_title_structure`. -/
def initState (label : String) (tn start_page end_page : Nat) : BuilderState :=
  ⟨⟨label, tn, start_page, end_page, [], []⟩, none, none, none, none⟩

/-- Page numbers of a line stream are bounded below by `p` and non-decreasing. -/
def pagesLB : Nat → List (Option String × Nat) → Bool
  | _, [] => true
  | p, (_, q) :: rest => if p ≤ q then pagesLB q rest else false

/-- The page number of the last line, or `p` for an empty stream. -/
def lastPageFrom (p : Nat) (lines : List (Option String × Nat)) : Nat :=
  lines.foldl (fun _ x => x.2) p

/-- All sections of a subtitle (inside divisions, then directly attached). -/
def subtitleSections (sub : Subtitle) : List Section :=
  ((sub.divisions.map (fun d => (d.chapters.map Chapter.sections).flatten)).flatten)
    ++ (sub.chapters.map Chapter.sections).flatten

/-- All sections of a finished document. -/
def titleSections (t : TitleData) : List Section :=
  (t.subtitles.map subtitleSections).flatten

/-- Dot-separated concatenation used to state the citation shape. -/
def dotJoin (segs : List (List Char)) : List Char :=
  segs.foldr (fun sg acc => '.' :: (sg ++ acc)) []

/-- Shape asserted by the citation-containment claim: the citation is the
    title number, a dot, then at least two further non-empty alphanumeric
    dot-separated segments. -/
def citationShape (tn : Nat) (cit : String) : Prop :=
  ∃ seg1 segs, seg1 ≠ [] ∧ seg1.all isAsciiAlnum = true ∧ segs ≠ [] ∧
    (∀ sg ∈ segs, sg ≠ [] ∧ sg.all isAsciiAlnum = true) ∧
    cit.data = (toString tn).data ++ '.' :: (seg1 ++ dotJoin segs)

/-- `start_page ≤ end_page` for a section. -/
def sectionPagesOk (s : Section) : Prop := s.start_page ≤ s.end_page

/-- `start_page ≤ end_page` for a chapter and its sections. -/
def chapterPagesOk (c : Chapter) : Prop :=
  c.start_page ≤ c.end_page ∧ ∀ s ∈ c.sections, sectionPagesOk s

/-- `start_page ≤ end_page` for a division and everything below it. -/
def divisionPagesOk (d : Division) : Prop :=
  d.start_page ≤ d.end_page ∧ ∀ c ∈ d.chapters, chapterPagesOk c

/-- `start_page ≤ end_page` for a subtitle and everything below it. -/
def subtitlePagesOk (sub : Subtitle) : Prop :=
  sub.start_page ≤ sub.end_page ∧ (∀ d ∈ sub.divisions, divisionPagesOk d) ∧
    ∀ c ∈ sub.chapters, chapterPagesOk c

/-- `start_page ≤ end_page` for every node of a finished document. -/
def titlePagesOk (t : TitleData) : Prop := ∀ sub ∈ t.subtitles, subtitlePagesOk sub

/-- `start_page ≤ end_page` for every node reachable from a builder state. -/
def statePagesOk (st : BuilderState) : Prop :=
  titlePagesOk st.title ∧
  (∀ sub, st.cur_subtitle = some sub → subtitlePagesOk sub) ∧
  (∀ d, st.cur_division = some d → divisionPagesOk d) ∧
  (∀ c, st.cur_chapter = some c → chapterPagesOk c) ∧
  (∀ s, st.cur_section = some s → sectionPagesOk s)

/-- Slot-wise `end_page` monotonicity across one transition: whichever of the
    four open-context slots is occupied before and after, its `end_page` did
    not shrink. -/
def slotEndLe (s t : BuilderState) : Prop :=
  (∀ a b, s.cur_subtitle = some a → t.cur_subtitle = some b →
    a.end_page ≤ b.end_page) ∧
  (∀ a b, s.cur_division = some a → t.cur_division = some b →
    a.end_page ≤ b.end_page) ∧
  (∀ a b, s.cur_chapter = some a → t.cur_chapter = some b →
    a.end_page ≤ b.end_page) ∧
  (∀ a b, s.cur_section = some a → t.cur_section = some b →
    a.end_page ≤ b.end_page)

/-- Pages-and-citation well-formedness of a section, relative to the
    configured title number. -/
def secGood (tn : Nat) (s : Section) : Prop :=
  s.start_page ≤ s.end_page ∧ citationShape tn s.citation

/-- Well-formedness of a chapter and its sections. -/
def chapGood (tn : Nat) (c : Chapter) : Prop :=
  c.start_page ≤ c.end_page ∧ ∀ s ∈ c.sections, secGood tn s

/-- Well-formedness of a division and everything below it. -/
def divGood (tn : Nat) (d : Division) : Prop :=
  d.start_page ≤ d.end_page ∧ ∀ c ∈ d.chapters, chapGood tn c

/-- Well-formedness of a subtitle and everything below it. -/
def subGood (tn : Nat) (sub : Subtitle) : Prop :=
  sub.start_page ≤ sub.end_page ∧ (∀ d ∈ sub.divisions, divGood tn d) ∧
    ∀ c ∈ sub.chapters, chapGood tn c

/-- Well-formedness of a finished document. -/
def titleGood (tn : Nat) (t : TitleData) : Prop := ∀ sub ∈ t.subtitles, subGood tn sub

/-- Builder invariant: the attached tree is well-formed, the open slots are
    well-formed, and every open slot's `end_page` is at most `p` (the page of
    the last processed line). -/
def Inv (tn : Nat) (st : BuilderState) (p : Nat) : Prop :=
  titleGood tn st.title ∧
  (∀ sub, st.cur_subtitle = some sub → subGood tn sub ∧ sub.end_page ≤ p) ∧
  (∀ d, st.cur_division = some d → divGood tn d ∧ d.end_page ≤ p) ∧
  (∀ c, st.cur_chapter = some c → chapGood tn c ∧ c.end_page ≤ p) ∧
  (∀ s, st.cur_section = some s → secGood tn s ∧ s.end_page ≤ p)

/-- First occurrence of each key, in order of first appearance. -/
def firstKeys (l : List String) : List String :=
  l.foldl (fun acc k => if k ∈ acc then acc else acc ++ [k]) []

/-- Citation well-formedness of every section of a chapter. -/
def chapCitOk (tn : Nat) (c : Chapter) : Prop :=
  ∀ s ∈ c.sections, citationShape tn s.citation

/-- Citation well-formedness of every section of a division. -/
def divCitOk (tn : Nat) (d : Division) : Prop := ∀ c ∈ d.chapters, chapCitOk tn c

/-- Citation well-formedness of every section of a subtitle. -/
def subCitOk (tn : Nat) (sub : Subtitle) : Prop :=
  (∀ d ∈ sub.divisions, divCitOk tn d) ∧ ∀ c ∈ sub.chapters, chapCitOk tn c

/-- Citation well-formedness of every section of a document. -/
def titleCitOk (tn : Nat) (t : TitleData) : Prop :=
  ∀ sub ∈ t.subtitles, subCitOk tn sub

/-- Citation well-formedness of every section reachable from a builder
    state. -/
def InvCit (tn : Nat) (st : BuilderState) : Prop :=
  titleCitOk tn st.title ∧
  (∀ sub, st.cur_subtitle = some sub → subCitOk tn sub) ∧
  (∀ d, st.cur_division = some d → divCitOk tn d) ∧
  (∀ c, st.cur_chapter = some c → chapCitOk tn c) ∧
  (∀ s, st.cur_section = some s → citationShape tn s.citation)

/-- Scenario A input of the specification (title number 23, all on page 1). -/
def scenarioA : List (Option String × Nat) :=
  [(some "Subtitle I Construction Codes", 1), (none, 1),
   (some "Chapter 23.42 Definitions", 1), (some "23.42.010 Scope.", 1),
   (some "This chapter applies to...", 1)]

/-- Scenario B input of the specification. -/
def scenarioB : List (Option String × Nat) :=
  [(some "Subtitle II", 1), (some "Land Use Codes", 1),
   (some "Chapter 23.50 ...", 1)]

/-- Duplicate candidate with a body, two body lines, earlier pages. -/
def secTwoLines : Section := ⟨"23.42.010", "Purpose.", 1, 3, ["a", "b"]⟩

/-- Duplicate candidate with a body, one body line, later pages. -/
def secOneLine : Section := ⟨"23.42.010", "Purpose.", 4, 5, ["c"]⟩

/-- Empty-body duplicate candidate, first discovered. -/
def secEmptyA : Section := ⟨"23.42.010", "Scope.", 1, 1, []⟩

/-- Empty-body duplicate candidate, second discovered, same pages. -/
def secEmptyB : Section := ⟨"23.42.010", "Scope (repeated).", 1, 1, []⟩

/-- Concrete chapter used to exercise `finalize_chapter` on an orphaned
    chapter. -/
def wChapter : Chapter := ⟨"23.40", "Ch", 1, 2, ["i1", "i2"], [secEmptyA]⟩

/-- Concrete orphaned-chapter builder state: a chapter (with an open section)
    but no open division or subtitle. -/
def wOrphanState : BuilderState :=
  ⟨⟨"L", 23, 1, 9, ["p"], []⟩, none, none, some wChapter, some secOneLine⟩

/-- Concrete untitled subtitle. -/
def wSub : Subtitle := ⟨"Subtitle II", "", 1, 1, [], [], []⟩

/-- Concrete state with an open untitled subtitle and no open chapter. -/
def wSubState : BuilderState :=
  ⟨⟨"L", 23, 1, 9, [], []⟩, some wSub, none, none, none⟩

/-!  ## Theorems -/

/-- C5: Scenario A — parsing the five-line stream with title number 23 yields
    one Subtitle "Subtitle I"/"Construction Codes" containing one Chapter
    "23.42"/"Definitions" containing one Section "23.42.010"/"Scope." whose
    serialized text is "This chapter applies to...". -/
theorem claim_c5 :
    (build_title_structure scenarioA "Title 23" 23 1 1).subtitles.map
        (fun sub => (sub.number, sub.title, sub.divisions.length,
          sub.chapters.map (fun c => (c.citation, c.title,
            c.sections.map (fun s => (s.citation, s.heading, sectionText s)))))) =
      [("Subtitle I", "Construction Codes", 0,
        [("23.42", "Definitions",
          [("23.42.010", "Scope.", "This chapter applies to...")])])] := by
  rfl

/-- C7 counterexample: the claim says the result is absent exactly when the
    citation argument is absent, but the present-but-empty citation `some ""`
    also yields an absent result (Python falsiness of the empty string). -/
theorem claim_c7_cex :
    build_full_citation 23 (some "") = none ∧ (some "" : Option String) ≠ none := by
  exact ⟨rfl, by simp⟩

/-- C7 (amended): `build_full_citation` is absent iff the citation is absent
    or empty; otherwise the citation is first stripped of surrounding
    whitespace: if the stripped citation starts (case-insensitively) with
    "smc", "title" or "chapter" the stripped citation itself is returned,
    else leading zeros are removed and "SMC " is prefixed. -/
theorem claim_c7 (tn : Nat) (c : Option String) :
    (build_full_citation tn c = none ↔ c = none ∨ c = some "") ∧
    (∀ s : String, c = some s → s ≠ "" →
      (strStarts (pyLower (pyStrip s)) "smc" = true ∨
        strStarts (pyLower (pyStrip s)) "title" = true ∨
        strStarts (pyLower (pyStrip s)) "chapter" = true) →
      build_full_citation tn c = some (pyStrip s)) ∧
    (∀ s : String, c = some s → s ≠ "" →
      strStarts (pyLower (pyStrip s)) "smc" = false →
      strStarts (pyLower (pyStrip s)) "title" = false →
      strStarts (pyLower (pyStrip s)) "chapter" = false →
      build_full_citation tn c = some ("SMC " ++ dropLeadingZeros (pyStrip s))) := by
  refine ⟨?_, ?_, ?_⟩
  · cases c with
    | none => simp [build_full_citation]
    | some s =>
      by_cases hs : s = "" <;> simp [build_full_citation, hs] <;> split_ifs <;> simp
  · rintro s rfl hne hpre
    simp only [build_full_citation, if_neg hne]
    rcases hpre with h | h | h <;> simp [h]
  · rintro s rfl hne h1 h2 h3
    simp [build_full_citation, if_neg hne, h1, h2, h3]

/-- C7 witness: the amended theorem applied to a concrete stripped-and-zero
    citation. -/
theorem claim_c7_witness :
    build_full_citation 23 (some " 0042.1 ") = some "SMC 42.1" := by
  have h := (claim_c7 23 (some " 0042.1 ")).2.2 " 0042.1 " rfl (by decide)
    (by decide) (by decide) (by decide)
  rw [h]; rfl

/-- C8: finalizing a chapter while no division and no subtitle are open folds
    the chapter's intro lines, in order, onto the document preface, and
    closes the chapter slot. -/
theorem claim_c8 (st : BuilderState) (ch : Chapter)
    (h1 : st.cur_chapter = some ch) (h2 : st.cur_division = none)
    (h3 : st.cur_subtitle = none) :
    (finalize_chapter st).title.preface_lines
        = st.title.preface_lines ++ ch.intro_lines ∧
    (finalize_chapter st).cur_chapter = none := by
  obtain ⟨t, su, dv, chp, se⟩ := st
  simp only at h1 h2 h3
  subst h1; subst h2; subst h3
  cases se <;> simp [finalize_chapter, finalize_section]

/-- C8 witness. -/
theorem claim_c8_witness :
    (finalize_chapter wOrphanState).title.preface_lines = ["p", "i1", "i2"] ∧
    (finalize_chapter wOrphanState).cur_chapter = none := by
  have h := claim_c8 wOrphanState wChapter rfl rfl rfl
  exact ⟨by rw [h.1]; rfl, h.2⟩

/-- C9: when a chapter is finalized with no open division and no open
    subtitle, the resulting state is exactly the old state with the chapter
    and section slots closed and the preface extended by the chapter's intro
    lines — so the orphaned chapter's sections (including the open one)
    appear nowhere, and the set of sections in the document is unchanged. -/
theorem claim_c9 (st : BuilderState) (ch : Chapter)
    (h1 : st.cur_chapter = some ch) (h2 : st.cur_division = none)
    (h3 : st.cur_subtitle = none) :
    finalize_chapter st =
      { st with cur_chapter := none, cur_section := none,
                title := { st.title with
                  preface_lines := st.title.preface_lines ++ ch.intro_lines } } ∧
    titleSections (finalize_chapter st).title = titleSections st.title := by
  obtain ⟨t, su, dv, chp, se⟩ := st
  simp only at h1 h2 h3
  subst h1; subst h2; subst h3
  constructor
  · cases se <;> simp [finalize_chapter, finalize_section]
  · cases se <;> simp [finalize_chapter, finalize_section, titleSections]

/-- C9 witness. -/
theorem claim_c9_witness :
    finalize_chapter wOrphanState =
      ⟨⟨"L", 23, 1, 9, ["p", "i1", "i2"], []⟩, none, none, none, none⟩ ∧
    titleSections (finalize_chapter wOrphanState).title
        = titleSections wOrphanState.title := by
  have h := claim_c9 wOrphanState wChapter rfl rfl rfl
  exact ⟨by rw [h.1]; rfl, h.2⟩

/-- C2 counterexample: two permutations of the same duplicate candidates
    (their own content unchanged) yield different survivors — with equal
    `end_page` and equally empty bodies the later-discovered section always
    wins, so discovery order matters. -/
theorem claim_c2_cex :
    (clean_chapter ⟨"23.42", "Defs", 1, 1, [], [secEmptyA, secEmptyB]⟩).sections
        = [secEmptyB] ∧
    (clean_chapter ⟨"23.42", "Defs", 1, 1, [], [secEmptyB, secEmptyA]⟩).sections
        = [secEmptyA] ∧
    secEmptyA ≠ secEmptyB := by
  decide

/-- C2 (amended): deduplication is deterministic for a fixed discovery order,
    but permuting duplicate candidates can change the survivor when the
    pairwise replacement test is symmetric (ties); whenever the replacement
    test is antisymmetric on a pair of duplicates, both discovery orders
    produce the same survivor — for sections and for subtitles. -/
theorem claim_c2 :
    (∀ a b : Section, a.citation = b.citation →
      should_replace_section a b = !should_replace_section b a →
      dedupSections [a, b] = dedupSections [b, a]) ∧
    (∀ s t : Subtitle, pyLower s.number = pyLower t.number →
      should_replace_subtitle s t = !should_replace_subtitle t s →
      dedupSubtitles [s, t] = dedupSubtitles [t, s]) := by
  constructor
  · intro a b hc h
    simp only [dedupSections, List.foldl, insertSection, if_pos hc,
      if_pos hc.symm]
    cases hR : should_replace_section a b with
    | true =>
      have h2 : should_replace_section b a = false := by
        rw [hR] at h; simpa using h.symm
      simp [hR, h2]
    | false =>
      have h2 : should_replace_section b a = true := by
        rw [hR] at h; simpa using h.symm
      simp [hR, h2]
  · intro s t hc h
    simp only [dedupSubtitles, List.foldl, insertSubtitle, if_pos hc,
      if_pos hc.symm]
    cases hR : should_replace_subtitle s t with
    | true =>
      have h2 : should_replace_subtitle t s = false := by
        rw [hR] at h; simpa using h.symm
      simp [hR, h2]
    | false =>
      have h2 : should_replace_subtitle t s = true := by
        rw [hR] at h; simpa using h.symm
      simp [hR, h2]

/-- C2 witness: an antisymmetric pair (empty body vs. populated body) gives
    the same survivor in either discovery order. -/
theorem claim_c2_witness :
    dedupSections [secEmptyA, secOneLine] = dedupSections [secOneLine, secEmptyA] :=
  claim_c2.1 secEmptyA secOneLine rfl (by decide)

/-- Every element of an insertion result was in the accumulator or is the
    inserted candidate. -/
theorem insertSection_mem {s x : Section} :
    ∀ acc : List Section, x ∈ insertSection acc s → x ∈ acc ∨ x = s := by
  intro acc
  induction acc with
  | nil => intro h; simpa [insertSection] using h
  | cons t ts ih =>
    intro h
    by_cases h1 : t.citation = s.citation
    · by_cases h2 : should_replace_section t s = true
      · simp only [insertSection, if_pos h1, if_pos h2, List.mem_cons] at h
        rcases h with h | h
        · exact Or.inr h
        · exact Or.inl (List.mem_cons_of_mem _ h)
      · simp only [insertSection, if_pos h1, if_neg h2] at h
        exact Or.inl h
    · simp only [insertSection, if_neg h1, List.mem_cons] at h
      rcases h with h | h
      · exact Or.inl (by simp [h])
      · rcases ih h with h' | h'
        · exact Or.inl (List.mem_cons_of_mem _ h')
        · exact Or.inr h'

/-- Fold version of `insertSection_mem`. -/
theorem dedup_foldl_mem :
    ∀ (l acc : List Section) (x : Section),
      x ∈ l.foldl insertSection acc → x ∈ acc ∨ x ∈ l := by
  intro l
  induction l with
  | nil => intro acc x h; exact Or.inl h
  | cons s rest ih =>
    intro acc x h
    rcases ih (insertSection acc s) x h with h' | h'
    · rcases insertSection_mem _ h' with h'' | h''
      · exact Or.inl h''
      · exact Or.inr (by simp [h''])
    · exact Or.inr (List.mem_cons_of_mem _ h')

/-- Citation keys after an insertion: unchanged if the key is present,
    appended otherwise. -/
theorem insertSection_keys (acc : List Section) (s : Section) :
    (insertSection acc s).map Section.citation =
      if s.citation ∈ acc.map Section.citation then acc.map Section.citation
      else acc.map Section.citation ++ [s.citation] := by
  induction acc with
  | nil => simp [insertSection]
  | cons t ts ih =>
    by_cases h1 : t.citation = s.citation
    · by_cases h2 : should_replace_section t s = true <;>
        simp [insertSection, h1, h2]
    · have h1' : s.citation ≠ t.citation := fun h => h1 h.symm
      by_cases h3 : s.citation ∈ ts.map Section.citation <;>
        simp [insertSection, h1, h1', h3, ih]

/-- Keys of the fold are the first-occurrence fold of the keys. -/
theorem dedup_keys_fold :
    ∀ (l acc : List Section),
      (l.foldl insertSection acc).map Section.citation =
        (l.map Section.citation).foldl
          (fun ks k => if k ∈ ks then ks else ks ++ [k])
          (acc.map Section.citation) := by
  intro l
  induction l with
  | nil => intro acc; rfl
  | cons s rest ih =>
    intro acc
    simp only [List.foldl, List.map]
    rw [ih, insertSection_keys]

/-- The deduplicated citations are the first occurrences of the input
    citations, in order. -/
theorem dedupSections_keys (l : List Section) :
    (dedupSections l).map Section.citation = firstKeys (l.map Section.citation) :=
  dedup_keys_fold l []

/-- The first-occurrence fold preserves and creates key uniqueness. -/
theorem firstKeys_fold_nodup :
    ∀ (ks : List String) (acc : List String), acc.Nodup →
      (ks.foldl (fun a k => if k ∈ a then a else a ++ [k]) acc).Nodup := by
  intro ks
  induction ks with
  | nil => intro acc h; exact h
  | cons k rest ih =>
    intro acc h
    simp only [List.foldl]
    by_cases hk : k ∈ acc
    · simpa [hk] using ih acc h
    · have : (acc ++ [k]).Nodup := by
        simp [List.nodup_append, h, hk]
      simpa [hk] using ih (acc ++ [k]) this

/-- Deduplicated citation lists have no duplicate citations. -/
theorem dedupSections_keys_nodup (l : List Section) :
    ((dedupSections l).map Section.citation).Nodup := by
  rw [dedupSections_keys]
  exact firstKeys_fold_nodup _ [] List.nodup_nil

/-- If the inserted candidate has body text for key `k`, every `k`-entry of
    the result has body text (assuming unique keys in the accumulator). -/
theorem insert_good_of_witness {k : String} {s : Section} :
    ∀ acc : List Section, (acc.map Section.citation).Nodup →
      s.citation = k → s.has_body = true →
      ∀ t ∈ insertSection acc s, t.citation = k → t.has_body = true := by
  intro acc
  induction acc with
  | nil =>
    intro _ hk hb t ht htk
    simp [insertSection] at ht
    rw [ht]; exact hb
  | cons t0 ts ih =>
    intro hnd hk hb t ht htk
    have hnd' : (ts.map Section.citation).Nodup := (List.nodup_cons.mp hnd).2
    have hhead : t0.citation ∉ ts.map Section.citation := (List.nodup_cons.mp hnd).1
    by_cases h1 : t0.citation = s.citation
    · by_cases h2 : should_replace_section t0 s = true
      · simp only [insertSection, if_pos h1, if_pos h2, List.mem_cons] at ht
        rcases ht with ht | ht
        · rw [ht]; exact hb
        · exfalso
          have : t.citation ∈ ts.map Section.citation := List.mem_map_of_mem _ ht
          rw [htk, ← hk, ← h1] at this
          exact hhead this
      · simp only [insertSection, if_pos h1, if_neg h2, List.mem_cons] at ht
        rcases ht with ht | ht
        · subst ht
          by_cases hb0 : t.has_body = true
          · exact hb0
          · exfalso
            have hb0' : t.has_body = false := by
              cases hmm : t.has_body
              · rfl
              · exact absurd hmm hb0
            have : should_replace_section t s = true := by
              simp [should_replace_section, hb, hb0']
            exact h2 this
        · exfalso
          have : t.citation ∈ ts.map Section.citation := List.mem_map_of_mem _ ht
          rw [htk, ← hk, ← h1] at this
          exact hhead this
    · simp only [insertSection, if_neg h1, List.mem_cons] at ht
      rcases ht with ht | ht
      · exfalso
        rw [ht] at htk
        exact h1 (htk.trans hk.symm)
      · exact ih hnd' hk hb t ht htk

/-- Inserting any candidate preserves "every `k`-entry has body text",
    provided a `k`-entry already exists. -/
theorem insert_good_keep {k : String} {s : Section} :
    ∀ acc : List Section,
      (∀ t ∈ acc, t.citation = k → t.has_body = true) →
      k ∈ acc.map Section.citation →
      ∀ t ∈ insertSection acc s, t.citation = k → t.has_body = true := by
  intro acc
  induction acc with
  | nil => intro _ hmem; simp at hmem
  | cons t0 ts ih =>
    intro hgood hmem t ht htk
    by_cases h1 : t0.citation = s.citation
    · by_cases h2 : should_replace_section t0 s = true
      · simp only [insertSection, if_pos h1, if_pos h2, List.mem_cons] at ht
        rcases ht with ht | ht
        · subst ht
          have ht0k : t0.citation = k := h1.trans htk
          have hbt0 : t0.has_body = true := hgood t0 (by simp) ht0k
          by_cases hbs : t.has_body = true
          · exact hbs
          · exfalso
            have hbs' : t.has_body = false := by
              cases hmm : t.has_body
              · rfl
              · exact absurd hmm hbs
            have : should_replace_section t0 t = false := by
              simp [should_replace_section, hbs', hbt0]
            rw [this] at h2
            exact Bool.noConfusion h2
        · exact hgood t (List.mem_cons_of_mem _ ht) htk
      · simp only [insertSection, if_pos h1, if_neg h2] at ht
        exact hgood t ht htk
    · simp only [insertSection, if_neg h1, List.mem_cons] at ht
      rcases ht with ht | ht
      · exact hgood t (by simp [ht]) htk
      · by_cases hk0 : t0.citation = k
        · rcases insertSection_mem _ ht with h' | h'
          · exact hgood t (List.mem_cons_of_mem _ h') htk
          · exfalso
            rw [h'] at htk
            exact h1 (hk0.trans htk.symm)
        · have hmem' : k ∈ ts.map Section.citation := by
            simp only [List.map, List.mem_cons] at hmem
            rcases hmem with h' | h'
            · exact absurd h'.symm hk0
            · exact h'
          exact ih (fun u hu huk => hgood u (List.mem_cons_of_mem _ hu) huk) hmem' t ht htk

/-- Once a body-carrying candidate for key `k` has been processed (or is
    still to come), every `k`-entry of the final fold has body text. -/
theorem dedup_good_fold {k : String} :
    ∀ (l acc : List Section), (acc.map Section.citation).Nodup →
      ((∃ s ∈ l, s.citation = k ∧ s.has_body = true) ∨
        ((∀ t ∈ acc, t.citation = k → t.has_body = true) ∧
          k ∈ acc.map Section.citation)) →
      ∀ t ∈ l.foldl insertSection acc, t.citation = k → t.has_body = true := by
  intro l
  induction l with
  | nil =>
    intro acc _ hd t ht htk
    rcases hd with ⟨s, hs, _⟩ | ⟨hgood, _⟩
    · exact absurd hs (List.not_mem_nil s)
    · exact hgood t ht htk
  | cons s rest ih =>
    intro acc hnd hd t ht htk
    have hnd' : ((insertSection acc s).map Section.citation).Nodup := by
      rw [insertSection_keys]
      split_ifs with hmem0
      · exact hnd
      · simp [List.nodup_append, hnd, hmem0]
    rcases hd with ⟨w, hw, hwk, hwb⟩ | ⟨hgood, hmem⟩
    · rcases List.mem_cons.mp hw with hw0 | hw0
      · subst hw0
        have hkmem : k ∈ (insertSection acc w).map Section.citation := by
          rw [insertSection_keys]
          split_ifs with h
          · exact hwk ▸ h
          · exact List.mem_append_right _ (by simp [hwk])
        exact ih (insertSection acc w) hnd'
          (Or.inr ⟨insert_good_of_witness acc hnd hwk hwb, hkmem⟩) t ht htk
      · exact ih _ hnd' (Or.inl ⟨w, hw0, hwk, hwb⟩) t ht htk
    · have hmem2 : k ∈ (insertSection acc s).map Section.citation := by
        rw [insertSection_keys]
        split_ifs with h
        · exact hmem
        · exact List.mem_append_left _ hmem
      exact ih _ hnd' (Or.inr ⟨insert_good_keep acc hgood hmem, hmem2⟩) t ht htk

/-- C1 counterexample: two body-carrying duplicates where the later one has
    FEWER body lines but a later `end_page` — the later one survives, against
    the claim's "among equally (non-)empty candidates, the one with more body
    lines is preferred". -/
theorem claim_c1_cex :
    (clean_chapter ⟨"23.42", "Defs", 1, 1, [], [secTwoLines, secOneLine]⟩).sections
        = [secOneLine] ∧
    secTwoLines.has_body = true ∧ secOneLine.has_body = true ∧
    secOneLine.body_lines.length < secTwoLines.body_lines.length := by
  decide

/-- C1 (amended): per-chapter section dedup keeps exactly one survivor per
    exact citation string, drawn from that citation's occurrences in
    first-occurrence order; a section with non-empty body always beats an
    empty one; among equally (non-)empty candidates the later occurrence
    replaces the survivor iff it has more body lines OR its `end_page` is at
    least the survivor's (so `end_page` can override the body-line count). -/
theorem claim_c1 :
    (∀ (l : List Section) (x : Section), x ∈ dedupSections l → x ∈ l) ∧
    (∀ l : List Section, (dedupSections l).map Section.citation
        = firstKeys (l.map Section.citation)) ∧
    (∀ l : List Section, ((dedupSections l).map Section.citation).Nodup) ∧
    (∀ (l : List Section) (k : String),
      (∃ s ∈ l, s.citation = k ∧ s.has_body = true) →
      ∀ t ∈ dedupSections l, t.citation = k → t.has_body = true) ∧
    (∀ a b : Section, a.citation = b.citation →
      a.has_body = false → b.has_body = true → dedupSections [a, b] = [b]) ∧
    (∀ a b : Section, a.citation = b.citation →
      a.has_body = b.has_body → a.body_lines.length < b.body_lines.length →
      dedupSections [a, b] = [b]) ∧
    (∀ a b : Section, a.citation = b.citation →
      a.has_body = b.has_body → a.end_page ≤ b.end_page →
      dedupSections [a, b] = [b]) ∧
    (∀ a b : Section, a.citation = b.citation →
      a.has_body = b.has_body → b.body_lines.length ≤ a.body_lines.length →
      b.end_page < a.end_page → dedupSections [a, b] = [a]) ∧
    (∀ a b : Section, a.citation = b.citation →
      a.has_body = true → b.has_body = false → dedupSections [a, b] = [a]) := by
  refine ⟨?_, dedupSections_keys, dedupSections_keys_nodup, ?_, ?_, ?_, ?_, ?_, ?_⟩
  · intro l x h
    rcases dedup_foldl_mem l [] x h with h' | h'
    · exact absurd h' (List.not_mem_nil x)
    · exact h'
  · exact fun l k hw => dedup_good_fold l [] (by simp) (Or.inl hw)
  · intro a b hc ha hb
    simp [dedupSections, insertSection, hc, should_replace_section, ha, hb]
  · intro a b hc heq hlt
    cases hb2 : b.has_body <;>
      simp [dedupSections, insertSection, hc, should_replace_section, heq, hb2, hlt]
  · intro a b hc heq hle
    by_cases hlen : a.body_lines.length < b.body_lines.length <;>
      cases hb2 : b.has_body <;>
        simp [dedupSections, insertSection, hc, should_replace_section, heq, hb2,
          hlen, hle]
  · intro a b hc heq hlen hend
    have h1 : ¬(a.body_lines.length < b.body_lines.length) := by omega
    have h2 : ¬(a.end_page ≤ b.end_page) := by omega
    cases hb2 : b.has_body <;>
      simp [dedupSections, insertSection, hc, should_replace_section, heq, hb2,
        h1, h2]
  · intro a b hc ha hb
    simp [dedupSections, insertSection, hc, should_replace_section, ha, hb]

/-- C1 witness: the body-over-empty preference rule applied to concrete
    duplicates. -/
theorem claim_c1_witness :
    dedupSections [secEmptyA, secOneLine] = [secOneLine] :=
  claim_c1.2.2.2.2.1 secEmptyA secOneLine rfl (by decide) (by decide)

/-- C6 counterexample: `"chapter overview"` satisfies every condition of the
    claim (the open subtitle has no title, no chapter is open, the line
    matches no heading pattern and is not "sections:"), yet the builder does
    NOT make it the subtitle's title — the code's guard is
    `startswith("chapter ")`, not "is a heading match", so the line lands in
    the subtitle's intro buffer instead. -/
theorem claim_c6_cex :
    (build_title_structure [(some "Subtitle II", 1), (some "chapter overview", 1)]
        "Title 23" 23 1 1).subtitles.map
        (fun sub => (sub.number, sub.title, sub.intro_lines))
      = [("Subtitle II", "", ["chapter overview"])] ∧
    parse_subtitle_line (condenseWs (pyStrip "chapter overview")) = none ∧
    divisionMatch (condenseWs (pyStrip "chapter overview")) = none ∧
    chapterFullMatch 23 (condenseWs (pyStrip "chapter overview")) = none ∧
    chapterShortMatch 23 (condenseWs (pyStrip "chapter overview")) = none ∧
    sectionMatch 23 (condenseWs (pyStrip "chapter overview")) = none ∧
    pyLower (pyStrip "chapter overview") ≠ "sections:" := by
  refine ⟨by rfl, by decide, by decide, by decide, by decide, by decide, by decide⟩

/-- C6 (amended): for a plain line processed while the open Subtitle has no
    title and no Chapter is open, if the line matches no heading pattern,
    does not match `^Subtitle\b` case-insensitively, does not start
    (case-insensitively) with "chapter ", and is not "sections:", the builder
    sets the stripped line as the Subtitle's title, extends the Subtitle's
    `end_page` to `max end_page page`, and changes nothing else (no buffer
    receives the line); Scenario B still holds. -/
theorem claim_c6 :
    (∀ (tn : Nat) (st : BuilderState) (sub : Subtitle) (raw : String) (page : Nat),
      st.cur_subtitle = some sub → sub.title = "" → st.cur_chapter = none →
      parse_subtitle_line (condenseWs (pyStrip raw)) = none →
      divisionMatch (condenseWs (pyStrip raw)) = none →
      chapterFullMatch tn (condenseWs (pyStrip raw)) = none →
      chapterShortMatch tn (condenseWs (pyStrip raw)) = none →
      subtitleWordStart (pyStrip raw) = false →
      strStarts (pyLower (pyStrip raw)) "chapter " = false →
      pyLower (pyStrip raw) ≠ "sections:" →
      lineStep tn st raw page =
        { st with cur_subtitle := some { sub with title := pyStrip raw, end_page := max sub.end_page page } }) ∧
    (build_title_structure scenarioB "Title 23" 23 1 1).subtitles.map
        (fun sub => (sub.number, sub.title)) = [("Subtitle II", "Land Use Codes")] := by
  constructor
  · intro tn st sub raw page h1 h2 h3 h4 h5 h6 h7 h8 h9 h10
    have hne : (pyLower (pyStrip raw) == "sections:") = false :=
      beq_eq_false_iff_ne.mpr h10
    simp only [lineStep, h4, h5, h6, h7]
    rcases hsm : sectionMatch tn (condenseWs (pyStrip raw)) with _ | ⟨cit, head⟩ <;>
      · simp only [h3]
        simp only [plainStep, h1, h2, h3, h8, h9, hne]
        simp [String.isEmpty]
        exact fun hx => absurd hx h10
  · rfl

/-- C6 witness: the amended deferred-subtitle-title rule applied at a
    concrete state and line. -/
theorem claim_c6_witness :
    lineStep 23 wSubState "Land Use Codes" 2 =
      { wSubState with cur_subtitle := some ⟨"Subtitle II", "Land Use Codes", 1, 2, [], [], []⟩ } := by
  have h := claim_c6.1 23 wSubState wSub "Land Use Codes" 2 rfl rfl rfl
    (by decide) (by decide) (by decide) (by decide) (by decide) (by decide)
    (by decide)
  rw [h]; rfl

/-- A word character is not whitespace. -/
theorem wordChar_not_space {c : Char} (h : isWordChar c = true) :
    isPySpace c = false := by
  cases hsp : isPySpace c
  · rfl
  · exfalso
    have hd : c = ' ' ∨ c = '\t' ∨ c = '\n' ∨ c = '\r' ∨ c = '\x0b' ∨ c = '\x0c' := by
      simpa [isPySpace, or_assoc] using hsp
    rcases hd with h' | h' | h' | h' | h' | h' <;> rw [h'] at h <;>
      exact absurd h (by decide)

/-- A word character is not a hyphen. -/
theorem wordChar_ne_hyphen {c : Char} (h : isWordChar c = true) : c ≠ '-' := by
  intro he; subst he; exact absurd h (by decide)

/-- A word character is not a carriage return. -/
theorem wordChar_ne_cr {c : Char} (h : isWordChar c = true) : c ≠ '\r' := by
  intro he; subst he; exact absurd h (by decide)

/-- `takeWhile`/`dropWhile` on a satisfying run followed by a failing
    character split exactly at that character. -/
theorem takeWhile_append_not {p : Char → Bool} :
    ∀ (ws : List Char) (c : Char) (rest : List Char),
      (∀ x ∈ ws, p x = true) → p c = false →
      (ws ++ c :: rest).takeWhile p = ws ∧
        (ws ++ c :: rest).dropWhile p = c :: rest := by
  intro ws
  induction ws with
  | nil => intro c rest _ hc; simp [List.takeWhile, List.dropWhile, hc]
  | cons w ws' ih =>
    intro c rest hall hc
    have hw : p w = true := hall w (by simp)
    have hrec := ih c rest (fun x hx => hall x (by simp [hx])) hc
    simp [List.takeWhile, List.dropWhile, hw, hrec.1, hrec.2]

/-- The hyphen-merge scan is the identity on hyphen-free text. -/
theorem hyphenMergeAux_no_hyphen :
    ∀ (fuel : Nat) (l : List Char), '-' ∉ l → hyphenMergeAux fuel l = l := by
  intro fuel
  induction fuel with
  | zero => intro l _; rfl
  | succ f ih =>
    intro l hl
    match l with
    | [] => rfl
    | [c] => rfl
    | c :: d :: rest2 =>
      have hd : d ≠ '-' := by
        intro he; exact hl (by simp [he])
      have hcd : (d == '-') = false := beq_eq_false_iff_ne.mpr hd
      have htail : '-' ∉ d :: rest2 := fun hm => hl (List.mem_cons_of_mem _ hm)
      simp only [hyphenMergeAux, hcd, Bool.and_false, Bool.false_eq_true,
        if_false]
      exact congrArg (c :: ·) (ih _ htail)

/-- The hyphen-merge scan removes a word-hyphen-whitespace-word site whose
    whitespace run contains a newline, concatenating the fragments. -/
theorem hyphenMergeAux_site :
    ∀ (fuel : Nat) (u ws v : List Char) (c₁ c₂ : Char),
      isWordChar c₁ = true → isWordChar c₂ = true →
      (∀ c ∈ ws, isPySpace c = true) → '\n' ∈ ws →
      '-' ∉ u → '-' ∉ v →
      (u ++ c₁ :: '-' :: (ws ++ c₂ :: v)).length ≤ fuel →
      hyphenMergeAux fuel (u ++ c₁ :: '-' :: (ws ++ c₂ :: v))
        = u ++ c₁ :: c₂ :: v := by
  intro fuel
  induction fuel with
  | zero =>
    intro u ws v c₁ c₂ _ _ _ _ _ _ hlen
    exfalso
    simp [List.length_append] at hlen
  | succ f ih =>
    intro u ws v c₁ c₂ h1 h2 hws hnl hu hv hlen
    match u, hu with
    | [], _ =>
      have hsp2 : isPySpace c₂ = false := wordChar_not_space h2
      have htw := takeWhile_append_not ws c₂ v hws hsp2
      have hcond : (isWordChar c₁ && ('-' == '-')) = true := by simp [h1]
      have hcont : ((ws ++ c₂ :: v).takeWhile isPySpace).contains '\n' = true := by
        rw [htw.1]
        exact List.elem_iff.mpr hnl
      have hhead : headIsWord ((ws ++ c₂ :: v).dropWhile isPySpace) = true := by
        rw [htw.2]; simpa [headIsWord] using h2
      have hvne : '-' ∉ c₂ :: v := by
        intro hm
        rcases List.mem_cons.mp hm with hm | hm
        · exact wordChar_ne_hyphen h2 hm.symm
        · exact hv hm
      simp only [List.nil_append, hyphenMergeAux, hcond, hcont, hhead,
        Bool.and_self, if_true]
      rw [htw.2]
      exact congrArg (c₁ :: ·) (hyphenMergeAux_no_hyphen f _ hvne)
    | a :: u', hu =>
      have hu' : '-' ∉ u' := fun hm => hu (List.mem_cons_of_mem _ hm)
      have hlen' : (u' ++ c₁ :: '-' :: (ws ++ c₂ :: v)).length ≤ f := by
        simp only [List.length_append, List.length_cons] at hlen ⊢
        omega
      match u', hu' with
      | [], _ =>
        have hcd : (c₁ == '-') = false :=
          beq_eq_false_iff_ne.mpr (wordChar_ne_hyphen h1)
        simp only [List.cons_append, List.nil_append, hyphenMergeAux, hcd,
          Bool.and_false, Bool.false_eq_true, if_false]
        exact congrArg (a :: ·) (ih [] ws v c₁ c₂ h1 h2 hws hnl (by simp) hv hlen')
      | b :: u'', hu' =>
        have hb : b ≠ '-' := fun he => hu' (by simp [he])
        have hcd : (b == '-') = false := beq_eq_false_iff_ne.mpr hb
        simp only [List.cons_append, hyphenMergeAux, hcd, Bool.and_false,
          Bool.false_eq_true, if_false]
        exact congrArg (a :: ·)
          (ih (b :: u'') ws v c₁ c₂ h1 h2 hws hnl hu' hv hlen')

/-- C10: the hyphen merge of `normalize_page_text` fires across any
    whitespace run that contains at least one line break (even several, i.e.
    an intervening blank line): the hyphen and the entire whitespace run are
    removed and the fragments are concatenated. -/
theorem claim_c10 (u ws v : List Char) (c₁ c₂ : Char)
    (h1 : isWordChar c₁ = true) (h2 : isWordChar c₂ = true)
    (hws : ∀ c ∈ ws, isPySpace c = true) (hnl : '\n' ∈ ws)
    (hu : '-' ∉ u) (hv : '-' ∉ v)
    (hur : '\r' ∉ u) (hwsr : '\r' ∉ ws) (hvr : '\r' ∉ v) :
    normalize_page_text ⟨u ++ c₁ :: '-' :: (ws ++ c₂ :: v)⟩
      = ⟨u ++ c₁ :: c₂ :: v⟩ := by
  have hne : (⟨u ++ c₁ :: '-' :: (ws ++ c₂ :: v)⟩ : String) ≠ "" := by
    intro h
    have : u ++ c₁ :: '-' :: (ws ++ c₂ :: v) = [] := congrArg String.data h
    simp at this
  simp only [normalize_page_text, if_neg hne]
  have hfil : (u ++ c₁ :: '-' :: (ws ++ c₂ :: v)).filter (fun c => c ≠ '\r')
      = u ++ c₁ :: '-' :: (ws ++ c₂ :: v) := by
    rw [List.filter_eq_self]
    intro a ha
    have hne2 : a ≠ '\r' := by
      rcases List.mem_append.mp ha with h' | h'
      · exact fun he => hur (he ▸ h')
      rcases List.mem_cons.mp h' with rfl | h'
      · exact wordChar_ne_cr h1
      rcases List.mem_cons.mp h' with rfl | h'
      · decide
      rcases List.mem_append.mp h' with h' | h'
      · exact fun he => hwsr (he ▸ h')
      rcases List.mem_cons.mp h' with rfl | h'
      · exact wordChar_ne_cr h2
      · exact fun he => hvr (he ▸ h')
    simpa using hne2
  simp only [hfil]
  exact congrArg String.mk
    (hyphenMergeAux_site _ u ws v c₁ c₂ h1 h2 hws hnl hu hv le_rfl)

/-- C10 witness: a hyphenated fragment separated from its continuation by a
    blank line (two newlines) is merged. -/
theorem claim_c10_witness :
    normalize_page_text "regula-\n\ntion continues" = "regulation continues" := by
  have h := claim_c10 ['r', 'e', 'g', 'u', 'l'] ['\n', '\n'] "ion continues".data
    'a' 't' (by decide) (by decide) (by decide) (by decide) (by decide)
    (by decide) (by decide) (by decide) (by decide)
  have e1 : "regula-\n\ntion continues"
      = (⟨['r', 'e', 'g', 'u', 'l'] ++ 'a' :: '-' ::
          (['\n', '\n'] ++ 't' :: "ion continues".data)⟩ : String) := by rfl
  rw [e1, h]; rfl

/-- `segLoop` consumes a dot-joined sequence of non-empty alphanumeric
    segments, one per counted group. -/
theorem segLoop_shape :
    ∀ (fuel : Nat) (cs : List Char), ∃ segs : List (List Char),
      (segLoop fuel cs).1 = dotJoin segs ∧
      segs.length = (segLoop fuel cs).2.1 ∧
      ∀ sg ∈ segs, sg ≠ [] ∧ sg.all isAsciiAlnum = true := by
  intro fuel
  induction fuel with
  | zero => intro cs; exact ⟨[], rfl, rfl, by simp⟩
  | succ f ih =>
    intro cs
    match cs with
    | [] => exact ⟨[], rfl, rfl, by simp⟩
    | c :: cs2 =>
      by_cases hc : c = '.'
      · subst hc
        by_cases hseg : (cs2.takeWhile isAsciiAlnum).isEmpty = true
        · exact ⟨[], by simp [segLoop, hseg, dotJoin], by simp [segLoop, hseg], by simp⟩
        · obtain ⟨segs, e1, e2, e3⟩ := ih (cs2.dropWhile isAsciiAlnum)
          refine ⟨cs2.takeWhile isAsciiAlnum :: segs, ?_, ?_, ?_⟩
          · simp [segLoop, hseg, dotJoin, e1]
          · simp [segLoop, hseg, e2]
          · intro sg hsg
            rcases List.mem_cons.mp hsg with rfl | hsg
            · refine ⟨?_, List.all_takeWhile⟩
              intro he
              rw [he] at hseg
              exact hseg rfl
            · exact e3 sg hsg
      · exact ⟨[], by simp [segLoop, hc, dotJoin], by simp [segLoop, hc], by simp⟩

/-- Any citation produced by the section matcher has the claimed shape:
    the title number, a dot, then at least two further non-empty
    alphanumeric dot-separated segments. -/
theorem sectionMatch_shape {tn : Nat} {line cit head : String}
    (h : sectionMatch tn line = some (cit, head)) : citationShape tn cit := by
  simp only [sectionMatch] at h
  split at h
  next => simp at h
  next cs hs =>
    split at h
    next => simp at h
    next c cs2 =>
      split at h
      next hc =>
        split at h
        next hseg => simp at h
        next hseg =>
          split at h
          next hn => simp at h
          next hn =>
            split at h
            next hws => simp at h
            next hws =>
              simp only [Option.some.injEq, Prod.mk.injEq] at h
              obtain ⟨hcit, _⟩ := h
              obtain ⟨segs, e1, e2, e3⟩ := segLoop_shape
                (cs2.dropWhile isAsciiAlnum).length (cs2.dropWhile isAsciiAlnum)
              refine ⟨cs2.takeWhile isAsciiAlnum, segs, ?_, List.all_takeWhile,
                ?_, e3, ?_⟩
              · intro he
                rw [he] at hseg
                exact hseg rfl
              · intro he
                rw [he] at e2
                exact hn e2.symm
              · rw [← hcit]
                simp [e1]
      next hc => simp at h

/-- The builder invariant is monotone in the page bound. -/
theorem Inv_mono {tn p q : Nat} {st : BuilderState} (hpq : p ≤ q)
    (h : Inv tn st p) : Inv tn st q := by
  obtain ⟨hT, hSu, hDv, hCh, hSe⟩ := h
  exact ⟨hT,
    fun sub hs => ⟨(hSu sub hs).1, le_trans (hSu sub hs).2 hpq⟩,
    fun d hd => ⟨(hDv d hd).1, le_trans (hDv d hd).2 hpq⟩,
    fun c hc => ⟨(hCh c hc).1, le_trans (hCh c hc).2 hpq⟩,
    fun s hs => ⟨(hSe s hs).1, le_trans (hSe s hs).2 hpq⟩⟩

/-- `finalize_section` preserves the builder invariant. -/
theorem finalize_section_inv {tn p : Nat} {st : BuilderState} (h : Inv tn st p) :
    Inv tn (finalize_section st) p := by
  obtain ⟨t, su, dv, ch, se⟩ := st
  obtain ⟨hT, hSu, hDv, hCh, hSe⟩ := h
  cases se with
  | none =>
    simp only [finalize_section]
    refine ⟨hT, hSu, hDv, hCh, ?_⟩
    intro x hx
    simp at hx
  | some s =>
    cases ch with
    | none =>
      simp only [finalize_section]
      refine ⟨hT, hSu, hDv, ?_, ?_⟩
      · intro c hc
        simp at hc
      · intro x hx
        simp at hx
    | some c =>
      simp only [finalize_section]
      obtain ⟨⟨hc1, hc2⟩, hc3⟩ := hCh c rfl
      obtain ⟨hs1, hs2⟩ := hSe s rfl
      refine ⟨hT, hSu, hDv, ?_, ?_⟩
      swap
      · intro x hx
        simp at hx
      intro c' hc'
      injection hc' with e
      subst e
      refine ⟨⟨hc1, ?_⟩, hc3⟩
      intro x hx
      rcases List.mem_append.mp hx with hx | hx
      · exact hc2 x hx
      · rw [List.mem_singleton.mp hx]
        exact hs1

/-- `finalize_chapter` preserves the builder invariant. -/
theorem finalize_chapter_inv {tn p : Nat} {st : BuilderState} (h : Inv tn st p) :
    Inv tn (finalize_chapter st) p := by
  have h1 := finalize_section_inv h
  simp only [finalize_chapter]
  generalize hg : finalize_section st = st1
  rw [hg] at h1
  obtain ⟨t, su, dv, ch, se⟩ := st1
  obtain ⟨hT, hSu, hDv, hCh, hSe⟩ := h1
  cases ch with
  | none => exact ⟨hT, hSu, hDv, hCh, hSe⟩
  | some c =>
    obtain ⟨hcg, hce⟩ := hCh c rfl
    cases dv with
    | some d =>
      obtain ⟨hdg, hde⟩ := hDv d rfl
      refine ⟨hT, hSu, ?_, ?_, hSe⟩
      · intro d' hd'
        injection hd' with e
        subst e
        refine ⟨⟨hdg.1, ?_⟩, hde⟩
        intro c' hc'
        rcases List.mem_append.mp hc' with hx | hx
        · exact hdg.2 c' hx
        · rw [List.mem_singleton.mp hx]
          exact hcg
      · intro c' hc'
        simp at hc'
    | none =>
      cases su with
      | some sub =>
        obtain ⟨hsg, hsue⟩ := hSu sub rfl
        refine ⟨hT, ?_, hDv, ?_, hSe⟩
        · intro sub' hsub'
          injection hsub' with e
          subst e
          refine ⟨⟨hsg.1, hsg.2.1, ?_⟩, hsue⟩
          intro c' hc'
          rcases List.mem_append.mp hc' with hx | hx
          · exact hsg.2.2 c' hx
          · rw [List.mem_singleton.mp hx]
            exact hcg
        · intro c' hc'
          simp at hc'
      | none =>
        refine ⟨hT, hSu, hDv, ?_, hSe⟩
        intro c' hc'
        simp at hc'

/-- `finalize_division` preserves the builder invariant. -/
theorem finalize_division_inv {tn p : Nat} {st : BuilderState} (h : Inv tn st p) :
    Inv tn (finalize_division st) p := by
  have h1 := finalize_chapter_inv h
  simp only [finalize_division]
  generalize hg : finalize_chapter st = st1
  rw [hg] at h1
  obtain ⟨t, su, dv, ch, se⟩ := st1
  obtain ⟨hT, hSu, hDv, hCh, hSe⟩ := h1
  cases dv with
  | none =>
    cases su with
    | none =>
      refine ⟨hT, hSu, ?_, hCh, hSe⟩
      intro d hd
      simp at hd
    | some sub =>
      refine ⟨hT, hSu, ?_, hCh, hSe⟩
      intro d hd
      simp at hd
  | some d =>
    obtain ⟨hdg, hde⟩ := hDv d rfl
    cases su with
    | none =>
      refine ⟨hT, hSu, ?_, hCh, hSe⟩
      intro d' hd'
      simp at hd'
    | some sub =>
      obtain ⟨hsg, hsue⟩ := hSu sub rfl
      refine ⟨hT, ?_, ?_, hCh, hSe⟩
      · intro sub' hsub'
        injection hsub' with e
        subst e
        refine ⟨⟨hsg.1, ?_, hsg.2.2⟩, hsue⟩
        intro d' hd'
        rcases List.mem_append.mp hd' with hx | hx
        · exact hsg.2.1 d' hx
        · rw [List.mem_singleton.mp hx]
          exact hdg
      · intro d' hd'
        simp at hd'

/-- `finalize_subtitle` preserves the builder invariant. -/
theorem finalize_subtitle_inv {tn p : Nat} {st : BuilderState} (h : Inv tn st p) :
    Inv tn (finalize_subtitle st) p := by
  have h1 := finalize_division_inv h
  simp only [finalize_subtitle]
  generalize hg : finalize_division st = st1
  rw [hg] at h1
  obtain ⟨t, su, dv, ch, se⟩ := st1
  obtain ⟨hT, hSu, hDv, hCh, hSe⟩ := h1
  cases su with
  | none => exact ⟨hT, hSu, hDv, hCh, hSe⟩
  | some sub =>
    obtain ⟨hsg, hsue⟩ := hSu sub rfl
    refine ⟨?_, ?_, hDv, hCh, hSe⟩
    · intro sub' hsub'
      rcases List.mem_append.mp hsub' with hx | hx
      · exact hT sub' hx
      · rw [List.mem_singleton.mp hx]
        exact hsg
    · intro sub' hsub'
      simp at hsub'

/-- Blank-line handling preserves the builder invariant (current page `q`
    bounding the state). -/
theorem blankStep_inv {tn q : Nat} {st : BuilderState} (h : Inv tn st q) :
    Inv tn (blankStep st q) q := by
  obtain ⟨t, su, dv, ch, se⟩ := st
  obtain ⟨hT, hSu, hDv, hCh, hSe⟩ := h
  cases se with
  | some s =>
    obtain ⟨⟨hs1, hs2⟩, hs3⟩ := hSe s rfl
    simp only [blankStep]
    refine ⟨hT, hSu, hDv, hCh, ?_⟩
    intro x hx
    injection hx with e
    subst e
    exact ⟨⟨le_trans hs1 hs3, hs2⟩, le_rfl⟩
  | none =>
    cases ch with
    | some c =>
      obtain ⟨⟨hc1, hc2⟩, hc3⟩ := hCh c rfl
      simp only [blankStep]
      refine ⟨hT, hSu, hDv, ?_, hSe⟩
      intro x hx
      injection hx with e
      subst e
      exact ⟨⟨le_trans hc1 hc3, hc2⟩, le_rfl⟩
    | none =>
      cases dv with
      | some d =>
        obtain ⟨⟨hd1, hd2⟩, hd3⟩ := hDv d rfl
        simp only [blankStep]
        refine ⟨hT, hSu, ?_, hCh, hSe⟩
        intro x hx
        injection hx with e
        subst e
        exact ⟨⟨le_trans hd1 hd3, hd2⟩, le_rfl⟩
      | none =>
        cases su with
        | some sub =>
          obtain ⟨⟨hb1, hb2, hb3⟩, hb4⟩ := hSu sub rfl
          simp only [blankStep]
          refine ⟨hT, ?_, hDv, hCh, hSe⟩
          intro x hx
          injection hx with e
          subst e
          exact ⟨⟨le_trans hb1 hb4, hb2, hb3⟩, le_rfl⟩
        | none =>
          simp only [blankStep]
          exact ⟨hT, hSu, hDv, hCh, hSe⟩

/-- The generic plain-text append preserves the builder invariant. -/
theorem appendPlain_inv {tn q : Nat} {st : BuilderState} (h : Inv tn st q)
    (line : String) : Inv tn (appendPlain st line q) q := by
  obtain ⟨t, su, dv, ch, se⟩ := st
  obtain ⟨hT, hSu, hDv, hCh, hSe⟩ := h
  cases se with
  | some s =>
    obtain ⟨⟨hs1, hs2⟩, hs3⟩ := hSe s rfl
    simp only [appendPlain]
    refine ⟨hT, hSu, hDv, hCh, ?_⟩
    intro x hx
    injection hx with e
    subst e
    exact ⟨⟨le_trans hs1 (le_max_left _ _), hs2⟩, max_le hs3 le_rfl⟩
  | none =>
    cases ch with
    | some c =>
      obtain ⟨⟨hc1, hc2⟩, hc3⟩ := hCh c rfl
      simp only [appendPlain]
      refine ⟨hT, hSu, hDv, ?_, hSe⟩
      intro x hx
      injection hx with e
      subst e
      exact ⟨⟨le_trans hc1 (le_max_left _ _), hc2⟩, max_le hc3 le_rfl⟩
    | none =>
      cases dv with
      | some d =>
        obtain ⟨⟨hd1, hd2⟩, hd3⟩ := hDv d rfl
        simp only [appendPlain]
        refine ⟨hT, hSu, ?_, hCh, hSe⟩
        intro x hx
        injection hx with e
        subst e
        exact ⟨⟨le_trans hd1 (le_max_left _ _), hd2⟩, max_le hd3 le_rfl⟩
      | none =>
        cases su with
        | some sub =>
          obtain ⟨⟨hb1, hb2, hb3⟩, hb4⟩ := hSu sub rfl
          simp only [appendPlain]
          refine ⟨hT, ?_, hDv, hCh, hSe⟩
          intro x hx
          injection hx with e
          subst e
          exact ⟨⟨le_trans hb1 (le_max_left _ _), hb2, hb3⟩, max_le hb4 le_rfl⟩
        | none =>
          simp only [appendPlain]
          exact ⟨hT, hSu, hDv, hCh, hSe⟩

/-- The plain-text transition (deferred titles or append) preserves the
    builder invariant. -/
theorem plainStep_inv {tn q : Nat} {st : BuilderState} (h : Inv tn st q)
    (line : String) : Inv tn (plainStep st line q) q := by
  obtain ⟨t, su, dv, ch, se⟩ := st
  have h' : Inv tn ⟨t, su, dv, ch, se⟩ q := h
  obtain ⟨hT, hSu, hDv, hCh, hSe⟩ := h
  cases su with
  | some sub =>
    obtain ⟨⟨hb1, hb2, hb3⟩, hb4⟩ := hSu sub rfl
    simp only [plainStep]
    split_ifs with hds hct
    · refine ⟨hT, ?_, hDv, hCh, hSe⟩
      intro x hx
      injection hx with e
      subst e
      exact ⟨⟨le_trans hb1 (le_max_left _ _), hb2, hb3⟩, max_le hb4 le_rfl⟩
    · cases ch with
      | some c =>
        obtain ⟨⟨hc1, hc2⟩, hc3⟩ := hCh c rfl
        refine ⟨hT, hSu, hDv, ?_, hSe⟩
        intro x hx
        injection hx with e
        subst e
        exact ⟨⟨le_trans hc1 (le_max_left _ _), hc2⟩, max_le hc3 le_rfl⟩
      | none =>
        refine ⟨hT, hSu, hDv, ?_, hSe⟩
        intro x hx
        simp at hx
    · exact appendPlain_inv h' line
  | none =>
    simp only [plainStep]
    split_ifs with hds hct
    · exact ⟨hT, hSu, hDv, hCh, hSe⟩
    · cases ch with
      | some c =>
        obtain ⟨⟨hc1, hc2⟩, hc3⟩ := hCh c rfl
        refine ⟨hT, hSu, hDv, ?_, hSe⟩
        intro x hx
        injection hx with e
        subst e
        exact ⟨⟨le_trans hc1 (le_max_left _ _), hc2⟩, max_le hc3 le_rfl⟩
      | none =>
        refine ⟨hT, hSu, hDv, ?_, hSe⟩
        intro x hx
        simp at hx
    · exact appendPlain_inv h' line

/-- A non-blank line transition preserves the builder invariant. -/
theorem lineStep_inv {tn q : Nat} {st : BuilderState} (h : Inv tn st q)
    (raw : String) : Inv tn (lineStep tn st raw q) q := by
  simp only [lineStep]
  rcases hps : parse_subtitle_line (condenseWs (pyStrip raw)) with _ | ⟨num, tit⟩
  · rcases hdm : divisionMatch (condenseWs (pyStrip raw)) with _ | ⟨dnum, dtit⟩
    · rcases hcf : chapterFullMatch tn (condenseWs (pyStrip raw)) with _ | ⟨cit, ctit⟩
      · rcases hcs : chapterShortMatch tn (condenseWs (pyStrip raw)) with _ | cit
        · rcases hsm : sectionMatch tn (condenseWs (pyStrip raw)) with _ | ⟨scit, shead⟩
          · exact plainStep_inv h (pyStrip raw)
          · rcases hch : st.cur_chapter with _ | c
            · exact plainStep_inv h (pyStrip raw)
            · have h1 := finalize_section_inv h
              refine ⟨h1.1, h1.2.1, h1.2.2.1, h1.2.2.2.1, ?_⟩
              intro x hx
              injection hx with e
              subst e
              exact ⟨⟨le_rfl, sectionMatch_shape hsm⟩, le_rfl⟩
        · have h1 := finalize_chapter_inv h
          refine ⟨h1.1, h1.2.1, h1.2.2.1, ?_, ?_⟩
          · intro x hx
            injection hx with e
            subst e
            refine ⟨⟨le_rfl, ?_⟩, le_rfl⟩
            intro y hy
            simp at hy
          · intro x hx
            simp at hx
      · have h1 := finalize_chapter_inv h
        refine ⟨h1.1, h1.2.1, h1.2.2.1, ?_, ?_⟩
        · intro x hx
          injection hx with e
          subst e
          refine ⟨⟨le_rfl, ?_⟩, le_rfl⟩
          intro y hy
          simp at hy
        · intro x hx
          simp at hx
    · rcases hsu : st.cur_subtitle with _ | sub
      · rcases hcf : chapterFullMatch tn (condenseWs (pyStrip raw)) with _ | ⟨cit, ctit⟩
        · rcases hcs : chapterShortMatch tn (condenseWs (pyStrip raw)) with _ | cit
          · rcases hsm : sectionMatch tn (condenseWs (pyStrip raw)) with _ | ⟨scit, shead⟩
            · exact plainStep_inv h (pyStrip raw)
            · rcases hch : st.cur_chapter with _ | c
              · exact plainStep_inv h (pyStrip raw)
              · have h1 := finalize_section_inv h
                refine ⟨h1.1, h1.2.1, h1.2.2.1, h1.2.2.2.1, ?_⟩
                intro x hx
                injection hx with e
                subst e
                exact ⟨⟨le_rfl, sectionMatch_shape hsm⟩, le_rfl⟩
          · have h1 := finalize_chapter_inv h
            refine ⟨h1.1, h1.2.1, h1.2.2.1, ?_, ?_⟩
            · intro x hx
              injection hx with e
              subst e
              refine ⟨⟨le_rfl, ?_⟩, le_rfl⟩
              intro y hy
              simp at hy
            · intro x hx
              simp at hx
        · have h1 := finalize_chapter_inv h
          refine ⟨h1.1, h1.2.1, h1.2.2.1, ?_, ?_⟩
          · intro x hx
            injection hx with e
            subst e
            refine ⟨⟨le_rfl, ?_⟩, le_rfl⟩
            intro y hy
            simp at hy
          · intro x hx
            simp at hx
      · have h1 := finalize_division_inv h
        refine ⟨h1.1, h1.2.1, ?_, ?_, ?_⟩
        · intro x hx
          injection hx with e
          subst e
          refine ⟨⟨le_rfl, ?_⟩, le_rfl⟩
          intro y hy
          simp at hy
        · intro x hx
          simp at hx
        · intro x hx
          simp at hx
  · have h1 := finalize_subtitle_inv h
    refine ⟨h1.1, ?_, ?_, ?_, ?_⟩
    · intro x hx
      injection hx with e
      subst e
      refine ⟨⟨le_rfl, ?_, ?_⟩, le_rfl⟩
      · intro y hy
        simp at hy
      · intro y hy
        simp at hy
    · intro x hx
      simp at hx
    · intro x hx
      simp at hx
    · intro x hx
      simp at hx

/-- One builder transition preserves the invariant when the page does not
    decrease. -/
theorem step_inv {tn p q : Nat} {st : BuilderState} (h : Inv tn st p)
    (hpq : p ≤ q) (l : Option String) : Inv tn (step tn st (l, q)) q := by
  have h' := Inv_mono hpq h
  cases l with
  | none => exact blankStep_inv h'
  | some raw => exact lineStep_inv h' raw

/-- Processing a monotone line stream preserves the invariant, with the last
    page as the new bound. -/
theorem run_inv {tn : Nat} :
    ∀ (lines : List (Option String × Nat)) (st : BuilderState) (p : Nat),
      Inv tn st p → pagesLB p lines = true →
      Inv tn (runLines tn st lines) (lastPageFrom p lines) := by
  intro lines
  induction lines with
  | nil => intro st p h _; exact h
  | cons x rest ih =>
    obtain ⟨l, q⟩ := x
    intro st p h hp
    simp only [pagesLB] at hp
    split_ifs at hp with hle
    exact ih (step tn st (l, q)) q (step_inv h hle l) hp

/-- A page bound valid for a concatenation is valid for the parts. -/
theorem pagesLB_append :
    ∀ (l₁ l₂ : List (Option String × Nat)) (p : Nat),
      pagesLB p (l₁ ++ l₂) = true →
      pagesLB p l₁ = true ∧ pagesLB (lastPageFrom p l₁) l₂ = true := by
  intro l₁
  induction l₁ with
  | nil => intro l₂ p h; exact ⟨rfl, h⟩
  | cons x rest ih =>
    obtain ⟨l, q⟩ := x
    intro l₂ p h
    simp only [List.cons_append, pagesLB] at h ⊢
    split_ifs at h ⊢ with hle
    exact ih l₂ q h

/-- The initial builder state satisfies the invariant at page bound 0. -/
theorem initState_inv (tn : Nat) (label : String) (sp ep : Nat) :
    Inv tn (initState label tn sp ep) 0 :=
  ⟨fun sub hs => by simp [initState] at hs,
   fun sub hs => by simp [initState] at hs,
   fun d hd => by simp [initState] at hd,
   fun c hc => by simp [initState] at hc,
   fun s hs => by simp [initState] at hs⟩

/-- Page half of section well-formedness. -/
theorem secGood_pages {tn : Nat} {s : Section} (h : secGood tn s) :
    sectionPagesOk s := h.1

/-- Page half of chapter well-formedness. -/
theorem chapGood_pages {tn : Nat} {c : Chapter} (h : chapGood tn c) :
    chapterPagesOk c := ⟨h.1, fun s hs => (h.2 s hs).1⟩

/-- Page half of division well-formedness. -/
theorem divGood_pages {tn : Nat} {d : Division} (h : divGood tn d) :
    divisionPagesOk d := ⟨h.1, fun c hc => chapGood_pages (h.2 c hc)⟩

/-- Page half of subtitle well-formedness. -/
theorem subGood_pages {tn : Nat} {sub : Subtitle} (h : subGood tn sub) :
    subtitlePagesOk sub :=
  ⟨h.1, fun d hd => divGood_pages (h.2.1 d hd),
    fun c hc => chapGood_pages (h.2.2 c hc)⟩

/-- Page half of document well-formedness. -/
theorem titleGood_pages {tn : Nat} {t : TitleData} (h : titleGood tn t) :
    titlePagesOk t := fun sub hs => subGood_pages (h sub hs)

/-- Page half of the builder invariant. -/
theorem Inv_statePagesOk {tn p : Nat} {st : BuilderState} (h : Inv tn st p) :
    statePagesOk st :=
  ⟨titleGood_pages h.1,
    fun sub hs => subGood_pages (h.2.1 sub hs).1,
    fun d hd => divGood_pages (h.2.2.1 d hd).1,
    fun c hc => chapGood_pages (h.2.2.2.1 c hc).1,
    fun s hs => secGood_pages (h.2.2.2.2 s hs).1⟩

/-- The deduplicated sections are among the input sections. -/
theorem dedupSections_sub {l : List Section} {x : Section}
    (h : x ∈ dedupSections l) : x ∈ l := by
  rcases dedup_foldl_mem l [] x h with h' | h'
  · exact absurd h' (List.not_mem_nil x)
  · exact h'

/-- Subtitle-insertion membership, mirroring `insertSection_mem`. -/
theorem insertSubtitle_mem {s x : Subtitle} :
    ∀ acc : List Subtitle, x ∈ insertSubtitle acc s → x ∈ acc ∨ x = s := by
  intro acc
  induction acc with
  | nil => intro h; simpa [insertSubtitle] using h
  | cons t ts ih =>
    intro h
    by_cases h1 : pyLower t.number = pyLower s.number
    · by_cases h2 : should_replace_subtitle t s = true
      · simp only [insertSubtitle, if_pos h1, if_pos h2, List.mem_cons] at h
        rcases h with h | h
        · exact Or.inr h
        · exact Or.inl (List.mem_cons_of_mem _ h)
      · simp only [insertSubtitle, if_pos h1, if_neg h2] at h
        exact Or.inl h
    · simp only [insertSubtitle, if_neg h1, List.mem_cons] at h
      rcases h with h | h
      · exact Or.inl (by simp [h])
      · rcases ih h with h' | h'
        · exact Or.inl (List.mem_cons_of_mem _ h')
        · exact Or.inr h'

/-- The deduplicated subtitles are among the input subtitles. -/
theorem dedupSubtitles_sub {l : List Subtitle} {x : Subtitle}
    (h : x ∈ dedupSubtitles l) : x ∈ l := by
  suffices haux : ∀ (l acc : List Subtitle) (x : Subtitle),
      x ∈ l.foldl insertSubtitle acc → x ∈ acc ∨ x ∈ l by
    rcases haux l [] x h with h' | h'
    · exact absurd h' (List.not_mem_nil x)
    · exact h'
  intro l
  induction l with
  | nil => intro acc x h; exact Or.inl h
  | cons s rest ih =>
    intro acc x h
    rcases ih (insertSubtitle acc s) x h with h' | h'
    · rcases insertSubtitle_mem _ h' with h'' | h''
      · exact Or.inl h''
      · exact Or.inr (by simp [h''])
    · exact Or.inr (List.mem_cons_of_mem _ h')

/-- Stable-insertion membership. -/
theorem insSorted_mem {x y : Subtitle} :
    ∀ l : List Subtitle, x ∈ insSorted y l → x = y ∨ x ∈ l := by
  intro l
  induction l with
  | nil => intro h; simpa [insSorted] using h
  | cons z zs ih =>
    intro h
    simp only [insSorted] at h
    split_ifs at h with h1
    · rcases List.mem_cons.mp h with h' | h'
      · exact Or.inr (by simp [h'])
      · rcases ih h' with h'' | h''
        · exact Or.inl h''
        · exact Or.inr (List.mem_cons_of_mem _ h'')
    · rcases List.mem_cons.mp h with h' | h'
      · exact Or.inl h'
      · exact Or.inr h'

/-- Sorting keeps exactly the input subtitles (membership direction used
    here). -/
theorem sortByStartPage_mem {x : Subtitle} :
    ∀ l : List Subtitle, x ∈ sortByStartPage l → x ∈ l := by
  intro l
  induction l with
  | nil => intro h; simpa [sortByStartPage] using h
  | cons y ys ih =>
    intro h
    rcases insSorted_mem _ h with h' | h'
    · exact by simp [h']
    · exact List.mem_cons_of_mem _ (ih h')

/-- `clean_chapter` preserves page well-formedness. -/
theorem clean_chapter_pages {c : Chapter} (h : chapterPagesOk c) :
    chapterPagesOk (clean_chapter c) :=
  ⟨h.1, fun s hs => h.2 s (dedupSections_sub hs)⟩

/-- `clean_subtitle` preserves page well-formedness. -/
theorem clean_subtitle_pages {sub : Subtitle} (h : subtitlePagesOk sub) :
    subtitlePagesOk (clean_subtitle sub) := by
  refine ⟨h.1, ?_, ?_⟩
  · intro d' hd'
    simp only [clean_subtitle, List.mem_map] at hd'
    obtain ⟨d, hd, rfl⟩ := hd'
    refine ⟨(h.2.1 d hd).1, ?_⟩
    intro c' hc'
    simp only [List.mem_map] at hc'
    obtain ⟨c, hc, rfl⟩ := hc'
    exact clean_chapter_pages ((h.2.1 d hd).2 c hc)
  · intro c' hc'
    simp only [clean_subtitle, List.mem_map] at hc'
    obtain ⟨c, hc, rfl⟩ := hc'
    exact clean_chapter_pages (h.2.2 c hc)

/-- `clean_title` preserves page well-formedness. -/
theorem clean_title_pages {t : TitleData} (h : titlePagesOk t) :
    titlePagesOk (clean_title t) := by
  intro sub' hs'
  simp only [clean_title] at hs'
  have h1 := sortByStartPage_mem _ hs'
  have h2 := dedupSubtitles_sub h1
  simp only [List.mem_map] at h2
  obtain ⟨sub, hsub, rfl⟩ := h2
  exact clean_subtitle_pages (h sub hsub)

/-- `finalize_section` leaves the subtitle slot untouched. -/
theorem fsec_sub (st : BuilderState) :
    (finalize_section st).cur_subtitle = st.cur_subtitle := by
  obtain ⟨t, su, dv, ch, se⟩ := st
  cases se <;> cases ch <;> simp [finalize_section]

/-- `finalize_section` leaves the division slot untouched. -/
theorem fsec_div (st : BuilderState) :
    (finalize_section st).cur_division = st.cur_division := by
  obtain ⟨t, su, dv, ch, se⟩ := st
  cases se <;> cases ch <;> simp [finalize_section]

/-- `finalize_section` does not change the open chapter's `end_page`. -/
theorem fsec_chap_end (st : BuilderState) :
    ((finalize_section st).cur_chapter).map Chapter.end_page
      = (st.cur_chapter).map Chapter.end_page := by
  obtain ⟨t, su, dv, ch, se⟩ := st
  cases se <;> cases ch <;> simp [finalize_section]

/-- `finalize_chapter` does not change the open subtitle's `end_page`. -/
theorem fchap_sub_end (st : BuilderState) :
    ((finalize_chapter st).cur_subtitle).map Subtitle.end_page
      = (st.cur_subtitle).map Subtitle.end_page := by
  obtain ⟨t, su, dv, ch, se⟩ := st
  cases se <;> cases ch <;> cases dv <;> cases su <;>
    simp [finalize_chapter, finalize_section]

/-- `finalize_chapter` does not change the open division's `end_page`. -/
theorem fchap_div_end (st : BuilderState) :
    ((finalize_chapter st).cur_division).map Division.end_page
      = (st.cur_division).map Division.end_page := by
  obtain ⟨t, su, dv, ch, se⟩ := st
  cases se <;> cases ch <;> cases dv <;> cases su <;>
    simp [finalize_chapter, finalize_section]

/-- `finalize_division` does not change the open subtitle's `end_page`. -/
theorem fdiv_sub_end (st : BuilderState) :
    ((finalize_division st).cur_subtitle).map Subtitle.end_page
      = (st.cur_subtitle).map Subtitle.end_page := by
  obtain ⟨t, su, dv, ch, se⟩ := st
  cases se <;> cases ch <;> cases dv <;> cases su <;>
    simp [finalize_division, finalize_chapter, finalize_section]

/-- Slot comparison from an unchanged `end_page` image. -/
theorem slotLe_of_map_eq {α : Type} (f : α → Nat) {o o' : Option α}
    (he : o'.map f = o.map f) :
    ∀ a b, o = some a → o' = some b → f a ≤ f b := by
  intro a b ha hb
  rw [ha, hb] at he
  simp only [Option.map_some'] at he
  exact le_of_eq (Option.some.inj he).symm

/-- Slot comparison when the new slot is closed. -/
theorem slotLe_of_none {α : Type} (f : α → Nat) {o o' : Option α}
    (he : o' = none) :
    ∀ a b, o = some a → o' = some b → f a ≤ f b := by
  intro a b _ hb
  rw [he] at hb
  exact absurd hb (by simp)

/-- Slot comparison through a common bound. -/
theorem slotLe_of_bound {α : Type} (f : α → Nat) {o o' : Option α} {q : Nat}
    (hb : ∀ a, o = some a → f a ≤ q)
    (hq : ∀ b, o' = some b → q ≤ f b) :
    ∀ a b, o = some a → o' = some b → f a ≤ f b :=
  fun a b ha hbb => le_trans (hb a ha) (hq b hbb)

/-- The plain-text transition never shrinks any open slot's `end_page`. -/
theorem plainStep_slotEndLe (st : BuilderState) (line : String) (q : Nat) :
    slotEndLe st (plainStep st line q) := by
  obtain ⟨t, su, dv, ch, se⟩ := st
  simp only [plainStep]
  cases su with
  | some sub =>
    split_ifs with hds hct
    · refine ⟨?_, slotLe_of_map_eq _ rfl, slotLe_of_map_eq _ rfl,
        slotLe_of_map_eq _ rfl⟩
      intro a b ha hb
      injection ha with ea
      injection hb with eb
      subst ea
      subst eb
      exact le_max_left _ _
    · cases ch with
      | some c =>
        refine ⟨slotLe_of_map_eq _ rfl, slotLe_of_map_eq _ rfl, ?_,
          slotLe_of_map_eq _ rfl⟩
        intro a b ha hb
        injection ha with ea
        injection hb with eb
        subst ea
        subst eb
        exact le_max_left _ _
      | none =>
        exact ⟨slotLe_of_map_eq _ rfl, slotLe_of_map_eq _ rfl,
          slotLe_of_map_eq _ rfl, slotLe_of_map_eq _ rfl⟩
    · cases se with
      | some s =>
        simp only [appendPlain]
        refine ⟨slotLe_of_map_eq _ rfl, slotLe_of_map_eq _ rfl,
          slotLe_of_map_eq _ rfl, ?_⟩
        intro a b ha hb
        injection ha with ea
        injection hb with eb
        subst ea
        subst eb
        exact le_max_left _ _
      | none =>
        cases ch with
        | some c =>
          simp only [appendPlain]
          refine ⟨slotLe_of_map_eq _ rfl, slotLe_of_map_eq _ rfl, ?_,
            slotLe_of_map_eq _ rfl⟩
          intro a b ha hb
          injection ha with ea
          injection hb with eb
          subst ea
          subst eb
          exact le_max_left _ _
        | none =>
          cases dv with
          | some d =>
            simp only [appendPlain]
            refine ⟨slotLe_of_map_eq _ rfl, ?_, slotLe_of_map_eq _ rfl,
              slotLe_of_map_eq _ rfl⟩
            intro a b ha hb
            injection ha with ea
            injection hb with eb
            subst ea
            subst eb
            exact le_max_left _ _
          | none =>
            simp only [appendPlain]
            refine ⟨?_, slotLe_of_map_eq _ rfl, slotLe_of_map_eq _ rfl,
              slotLe_of_map_eq _ rfl⟩
            intro a b ha hb
            injection ha with ea
            injection hb with eb
            subst ea
            subst eb
            exact le_max_left _ _
  | none =>
    split_ifs with hds hct
    · exact ⟨slotLe_of_map_eq _ rfl, slotLe_of_map_eq _ rfl,
        slotLe_of_map_eq _ rfl, slotLe_of_map_eq _ rfl⟩
    · cases ch with
      | some c =>
        refine ⟨slotLe_of_map_eq _ rfl, slotLe_of_map_eq _ rfl, ?_,
          slotLe_of_map_eq _ rfl⟩
        intro a b ha hb
        injection ha with ea
        injection hb with eb
        subst ea
        subst eb
        exact le_max_left _ _
      | none =>
        exact ⟨slotLe_of_map_eq _ rfl, slotLe_of_map_eq _ rfl,
          slotLe_of_map_eq _ rfl, slotLe_of_map_eq _ rfl⟩
    · cases se with
      | some s =>
        simp only [appendPlain]
        refine ⟨slotLe_of_map_eq _ rfl, slotLe_of_map_eq _ rfl,
          slotLe_of_map_eq _ rfl, ?_⟩
        intro a b ha hb
        injection ha with ea
        injection hb with eb
        subst ea
        subst eb
        exact le_max_left _ _
      | none =>
        cases ch with
        | some c =>
          simp only [appendPlain]
          refine ⟨slotLe_of_map_eq _ rfl, slotLe_of_map_eq _ rfl, ?_,
            slotLe_of_map_eq _ rfl⟩
          intro a b ha hb
          injection ha with ea
          injection hb with eb
          subst ea
          subst eb
          exact le_max_left _ _
        | none =>
          cases dv with
          | some d =>
            simp only [appendPlain]
            refine ⟨slotLe_of_map_eq _ rfl, ?_, slotLe_of_map_eq _ rfl,
              slotLe_of_map_eq _ rfl⟩
            intro a b ha hb
            injection ha with ea
            injection hb with eb
            subst ea
            subst eb
            exact le_max_left _ _
          | none =>
            simp only [appendPlain]
            exact ⟨slotLe_of_map_eq _ rfl, slotLe_of_map_eq _ rfl,
              slotLe_of_map_eq _ rfl, slotLe_of_map_eq _ rfl⟩

/-- One builder transition never shrinks the `end_page` of any open slot. -/
theorem step_slotEndLe {tn p q : Nat} {st : BuilderState} (h : Inv tn st p)
    (hpq : p ≤ q) (l : Option String) : slotEndLe st (step tn st (l, q)) := by
  have h' := Inv_mono hpq h
  obtain ⟨hT, hSu, hDv, hCh, hSe⟩ := h'
  cases l with
  | none =>
    obtain ⟨t, su, dv, ch, se⟩ := st
    cases se with
    | some s =>
      simp only [step, blankStep]
      refine ⟨slotLe_of_map_eq _ rfl, slotLe_of_map_eq _ rfl,
        slotLe_of_map_eq _ rfl,
        slotLe_of_bound _ (fun a ha => (hSe a ha).2) ?_⟩
      intro b hb
      injection hb with e
      subst e
      exact le_rfl
    | none =>
      cases ch with
      | some c =>
        simp only [step, blankStep]
        refine ⟨slotLe_of_map_eq _ rfl, slotLe_of_map_eq _ rfl,
          slotLe_of_bound _ (fun a ha => (hCh a ha).2) ?_,
          slotLe_of_map_eq _ rfl⟩
        intro b hb
        injection hb with e
        subst e
        exact le_rfl
      | none =>
        cases dv with
        | some d =>
          simp only [step, blankStep]
          refine ⟨slotLe_of_map_eq _ rfl,
            slotLe_of_bound _ (fun a ha => (hDv a ha).2) ?_,
            slotLe_of_map_eq _ rfl, slotLe_of_map_eq _ rfl⟩
          intro b hb
          injection hb with e
          subst e
          exact le_rfl
        | none =>
          cases su with
          | some sub =>
            simp only [step, blankStep]
            refine ⟨slotLe_of_bound _ (fun a ha => (hSu a ha).2) ?_,
              slotLe_of_map_eq _ rfl, slotLe_of_map_eq _ rfl,
              slotLe_of_map_eq _ rfl⟩
            intro b hb
            injection hb with e
            subst e
            exact le_rfl
          | none =>
            simp only [step, blankStep]
            exact ⟨slotLe_of_map_eq _ rfl, slotLe_of_map_eq _ rfl,
              slotLe_of_map_eq _ rfl, slotLe_of_map_eq _ rfl⟩
  | some raw =>
    simp only [step, lineStep]
    rcases hps : parse_subtitle_line (condenseWs (pyStrip raw)) with _ | ⟨num, tit⟩
    · rcases hdm : divisionMatch (condenseWs (pyStrip raw)) with _ | ⟨dnum, dtit⟩
      · rcases hcf : chapterFullMatch tn (condenseWs (pyStrip raw)) with _ | ⟨cit, ctit⟩
        · rcases hcs : chapterShortMatch tn (condenseWs (pyStrip raw)) with _ | cit
          · rcases hsm : sectionMatch tn (condenseWs (pyStrip raw)) with _ | ⟨scit, shead⟩
            · exact plainStep_slotEndLe st (pyStrip raw) q
            · rcases hch : st.cur_chapter with _ | c
              · exact plainStep_slotEndLe st (pyStrip raw) q
              · refine ⟨slotLe_of_map_eq _ (by rw [fsec_sub]),
                  slotLe_of_map_eq _ (by rw [fsec_div]),
                  slotLe_of_map_eq _ (fsec_chap_end st),
                  slotLe_of_bound _ (fun a ha => (hSe a ha).2) ?_⟩
                intro b hb
                injection hb with e
                subst e
                exact le_rfl
          · refine ⟨slotLe_of_map_eq _ (fchap_sub_end st),
              slotLe_of_map_eq _ (fchap_div_end st),
              slotLe_of_bound _ (fun a ha => (hCh a ha).2) ?_,
              slotLe_of_none _ rfl⟩
            intro b hb
            injection hb with e
            subst e
            exact le_rfl
        · refine ⟨slotLe_of_map_eq _ (fchap_sub_end st),
            slotLe_of_map_eq _ (fchap_div_end st),
            slotLe_of_bound _ (fun a ha => (hCh a ha).2) ?_,
            slotLe_of_none _ rfl⟩
          intro b hb
          injection hb with e
          subst e
          exact le_rfl
      · rcases hsu : st.cur_subtitle with _ | sub
        · rcases hcf : chapterFullMatch tn (condenseWs (pyStrip raw)) with _ | ⟨cit, ctit⟩
          · rcases hcs : chapterShortMatch tn (condenseWs (pyStrip raw)) with _ | cit
            · rcases hsm : sectionMatch tn (condenseWs (pyStrip raw)) with _ | ⟨scit, shead⟩
              · exact plainStep_slotEndLe st (pyStrip raw) q
              · rcases hch : st.cur_chapter with _ | c
                · exact plainStep_slotEndLe st (pyStrip raw) q
                · refine ⟨slotLe_of_map_eq _ (by rw [fsec_sub]),
                    slotLe_of_map_eq _ (by rw [fsec_div]),
                    slotLe_of_map_eq _ (fsec_chap_end st),
                    slotLe_of_bound _ (fun a ha => (hSe a ha).2) ?_⟩
                  intro b hb
                  injection hb with e
                  subst e
                  exact le_rfl
            · refine ⟨slotLe_of_map_eq _ (fchap_sub_end st),
                slotLe_of_map_eq _ (fchap_div_end st),
                slotLe_of_bound _ (fun a ha => (hCh a ha).2) ?_,
                slotLe_of_none _ rfl⟩
              intro b hb
              injection hb with e
              subst e
              exact le_rfl
          · refine ⟨slotLe_of_map_eq _ (fchap_sub_end st),
              slotLe_of_map_eq _ (fchap_div_end st),
              slotLe_of_bound _ (fun a ha => (hCh a ha).2) ?_,
              slotLe_of_none _ rfl⟩
            intro b hb
            injection hb with e
            subst e
            exact le_rfl
        · refine ⟨slotLe_of_map_eq _ (fdiv_sub_end st),
            slotLe_of_bound _ (fun a ha => (hDv a ha).2) ?_,
            slotLe_of_none _ rfl, slotLe_of_none _ rfl⟩
          intro b hb
          injection hb with e
          subst e
          exact le_rfl
    · refine ⟨slotLe_of_bound _ (fun a ha => (hSu a ha).2) ?_,
        slotLe_of_none _ rfl, slotLe_of_none _ rfl, slotLe_of_none _ rfl⟩
      intro b hb
      injection hb with e
      subst e
      exact le_rfl

/-- C3: with non-decreasing input pages, every node of the finished tree has
    `start_page ≤ end_page`; the same holds for every node of every
    intermediate builder state; and across every single transition no open
    slot's `end_page` shrinks (including blank-line handling). -/
theorem claim_c3 (lines : List (Option String × Nat)) (label : String)
    (tn sp ep : Nat) (h : pagesLB 0 lines = true) :
    titlePagesOk (build_title_structure lines label tn sp ep) ∧
    (∀ l₁ l₂, lines = l₁ ++ l₂ →
      statePagesOk (runLines tn (initState label tn sp ep) l₁)) ∧
    (∀ l₁ x l₂, lines = l₁ ++ x :: l₂ →
      slotEndLe (runLines tn (initState label tn sp ep) l₁)
        (step tn (runLines tn (initState label tn sp ep) l₁) x)) := by
  have h0 := initState_inv tn label sp ep
  refine ⟨?_, ?_, ?_⟩
  · have h1 := run_inv lines (initState label tn sp ep) 0 h0 h
    have h2 := finalize_subtitle_inv h1
    exact clean_title_pages (titleGood_pages h2.1)
  · intro l₁ l₂ heq
    subst heq
    obtain ⟨hp1, _⟩ := pagesLB_append l₁ l₂ 0 h
    exact Inv_statePagesOk (run_inv l₁ _ 0 h0 hp1)
  · intro l₁ x l₂ heq
    subst heq
    obtain ⟨hp1, hp2⟩ := pagesLB_append l₁ (x :: l₂) 0 h
    have h1 := run_inv l₁ _ 0 h0 hp1
    obtain ⟨l, q⟩ := x
    simp only [pagesLB] at hp2
    split_ifs at hp2 with hle
    exact step_slotEndLe h1 hle l

/-- C3 witness: page monotonicity of the Scenario A parse. -/
theorem claim_c3_witness :
    titlePagesOk (build_title_structure scenarioA "Title 23" 23 1 1) :=
  (claim_c3 scenarioA "Title 23" 23 1 1 (by decide)).1

/-- `finalize_section` preserves citation well-formedness. -/
theorem finalize_section_cit {tn : Nat} {st : BuilderState} (h : InvCit tn st) :
    InvCit tn (finalize_section st) := by
  obtain ⟨t, su, dv, ch, se⟩ := st
  obtain ⟨hT, hSu, hDv, hCh, hSe⟩ := h
  cases se with
  | none =>
    simp only [finalize_section]
    refine ⟨hT, hSu, hDv, hCh, ?_⟩
    intro x hx
    simp at hx
  | some s =>
    cases ch with
    | none =>
      simp only [finalize_section]
      refine ⟨hT, hSu, hDv, ?_, ?_⟩
      · intro c hc
        simp at hc
      · intro x hx
        simp at hx
    | some c =>
      simp only [finalize_section]
      refine ⟨hT, hSu, hDv, ?_, ?_⟩
      swap
      · intro x hx
        simp at hx
      intro c' hc'
      injection hc' with e
      subst e
      intro x hx
      rcases List.mem_append.mp hx with hx | hx
      · exact hCh c rfl x hx
      · rw [List.mem_singleton.mp hx]
        exact hSe s rfl

/-- `finalize_chapter` preserves citation well-formedness. -/
theorem finalize_chapter_cit {tn : Nat} {st : BuilderState} (h : InvCit tn st) :
    InvCit tn (finalize_chapter st) := by
  have h1 := finalize_section_cit h
  simp only [finalize_chapter]
  generalize hg : finalize_section st = st1
  rw [hg] at h1
  obtain ⟨t, su, dv, ch, se⟩ := st1
  obtain ⟨hT, hSu, hDv, hCh, hSe⟩ := h1
  cases ch with
  | none => exact ⟨hT, hSu, hDv, hCh, hSe⟩
  | some c =>
    have hcg := hCh c rfl
    cases dv with
    | some d =>
      refine ⟨hT, hSu, ?_, ?_, hSe⟩
      · intro d' hd'
        injection hd' with e
        subst e
        intro c' hc'
        rcases List.mem_append.mp hc' with hx | hx
        · exact hDv d rfl c' hx
        · rw [List.mem_singleton.mp hx]
          exact hcg
      · intro c' hc'
        simp at hc'
    | none =>
      cases su with
      | some sub =>
        have hsg := hSu sub rfl
        refine ⟨hT, ?_, hDv, ?_, hSe⟩
        · intro sub' hsub'
          injection hsub' with e
          subst e
          refine ⟨hsg.1, ?_⟩
          intro c' hc'
          rcases List.mem_append.mp hc' with hx | hx
          · exact hsg.2 c' hx
          · rw [List.mem_singleton.mp hx]
            exact hcg
        · intro c' hc'
          simp at hc'
      | none =>
        refine ⟨hT, hSu, hDv, ?_, hSe⟩
        intro c' hc'
        simp at hc'

/-- `finalize_division` preserves citation well-formedness. -/
theorem finalize_division_cit {tn : Nat} {st : BuilderState} (h : InvCit tn st) :
    InvCit tn (finalize_division st) := by
  have h1 := finalize_chapter_cit h
  simp only [finalize_division]
  generalize hg : finalize_chapter st = st1
  rw [hg] at h1
  obtain ⟨t, su, dv, ch, se⟩ := st1
  obtain ⟨hT, hSu, hDv, hCh, hSe⟩ := h1
  cases dv with
  | none =>
    cases su with
    | none =>
      refine ⟨hT, hSu, ?_, hCh, hSe⟩
      intro d hd
      simp at hd
    | some sub =>
      refine ⟨hT, hSu, ?_, hCh, hSe⟩
      intro d hd
      simp at hd
  | some d =>
    have hdg := hDv d rfl
    cases su with
    | none =>
      refine ⟨hT, hSu, ?_, hCh, hSe⟩
      intro d' hd'
      simp at hd'
    | some sub =>
      have hsg := hSu sub rfl
      refine ⟨hT, ?_, ?_, hCh, hSe⟩
      · intro sub' hsub'
        injection hsub' with e
        subst e
        refine ⟨?_, hsg.2⟩
        intro d' hd'
        rcases List.mem_append.mp hd' with hx | hx
        · exact hsg.1 d' hx
        · rw [List.mem_singleton.mp hx]
          exact hdg
      · intro d' hd'
        simp at hd'

/-- `finalize_subtitle` preserves citation well-formedness. -/
theorem finalize_subtitle_cit {tn : Nat} {st : BuilderState} (h : InvCit tn st) :
    InvCit tn (finalize_subtitle st) := by
  have h1 := finalize_division_cit h
  simp only [finalize_subtitle]
  generalize hg : finalize_division st = st1
  rw [hg] at h1
  obtain ⟨t, su, dv, ch, se⟩ := st1
  obtain ⟨hT, hSu, hDv, hCh, hSe⟩ := h1
  cases su with
  | none => exact ⟨hT, hSu, hDv, hCh, hSe⟩
  | some sub =>
    refine ⟨?_, ?_, hDv, hCh, hSe⟩
    · intro sub' hsub'
      rcases List.mem_append.mp hsub' with hx | hx
      · exact hT sub' hx
      · rw [List.mem_singleton.mp hx]
        exact hSu sub rfl
    · intro sub' hsub'
      simp at hsub'

/-- Blank-line handling preserves citation well-formedness. -/
theorem blankStep_cit {tn q : Nat} {st : BuilderState} (h : InvCit tn st) :
    InvCit tn (blankStep st q) := by
  obtain ⟨t, su, dv, ch, se⟩ := st
  obtain ⟨hT, hSu, hDv, hCh, hSe⟩ := h
  cases se with
  | some s =>
    simp only [blankStep]
    refine ⟨hT, hSu, hDv, hCh, ?_⟩
    intro x hx
    injection hx with e
    subst e
    exact hSe s rfl
  | none =>
    cases ch with
    | some c =>
      simp only [blankStep]
      refine ⟨hT, hSu, hDv, ?_, hSe⟩
      intro x hx
      injection hx with e
      subst e
      exact hCh c rfl
    | none =>
      cases dv with
      | some d =>
        simp only [blankStep]
        refine ⟨hT, hSu, ?_, hCh, hSe⟩
        intro x hx
        injection hx with e
        subst e
        exact hDv d rfl
      | none =>
        cases su with
        | some sub =>
          simp only [blankStep]
          refine ⟨hT, ?_, hDv, hCh, hSe⟩
          intro x hx
          injection hx with e
          subst e
          exact hSu sub rfl
        | none =>
          simp only [blankStep]
          exact ⟨hT, hSu, hDv, hCh, hSe⟩

/-- The generic plain-text append preserves citation well-formedness. -/
theorem appendPlain_cit {tn q : Nat} {st : BuilderState} (h : InvCit tn st)
    (line : String) : InvCit tn (appendPlain st line q) := by
  obtain ⟨t, su, dv, ch, se⟩ := st
  obtain ⟨hT, hSu, hDv, hCh, hSe⟩ := h
  cases se with
  | some s =>
    simp only [appendPlain]
    refine ⟨hT, hSu, hDv, hCh, ?_⟩
    intro x hx
    injection hx with e
    subst e
    exact hSe s rfl
  | none =>
    cases ch with
    | some c =>
      simp only [appendPlain]
      refine ⟨hT, hSu, hDv, ?_, hSe⟩
      intro x hx
      injection hx with e
      subst e
      exact hCh c rfl
    | none =>
      cases dv with
      | some d =>
        simp only [appendPlain]
        refine ⟨hT, hSu, ?_, hCh, hSe⟩
        intro x hx
        injection hx with e
        subst e
        exact hDv d rfl
      | none =>
        cases su with
        | some sub =>
          simp only [appendPlain]
          refine ⟨hT, ?_, hDv, hCh, hSe⟩
          intro x hx
          injection hx with e
          subst e
          exact hSu sub rfl
        | none =>
          simp only [appendPlain]
          exact ⟨hT, hSu, hDv, hCh, hSe⟩

/-- The plain-text transition preserves citation well-formedness. -/
theorem plainStep_cit {tn q : Nat} {st : BuilderState} (h : InvCit tn st)
    (line : String) : InvCit tn (plainStep st line q) := by
  obtain ⟨t, su, dv, ch, se⟩ := st
  have h' : InvCit tn ⟨t, su, dv, ch, se⟩ := h
  obtain ⟨hT, hSu, hDv, hCh, hSe⟩ := h
  cases su with
  | some sub =>
    simp only [plainStep]
    split_ifs with hds hct
    · refine ⟨hT, ?_, hDv, hCh, hSe⟩
      intro x hx
      injection hx with e
      subst e
      exact hSu sub rfl
    · cases ch with
      | some c =>
        refine ⟨hT, hSu, hDv, ?_, hSe⟩
        intro x hx
        injection hx with e
        subst e
        exact hCh c rfl
      | none =>
        refine ⟨hT, hSu, hDv, ?_, hSe⟩
        intro x hx
        simp at hx
    · exact appendPlain_cit h' line
  | none =>
    simp only [plainStep]
    split_ifs with hds hct
    · exact ⟨hT, hSu, hDv, hCh, hSe⟩
    · cases ch with
      | some c =>
        refine ⟨hT, hSu, hDv, ?_, hSe⟩
        intro x hx
        injection hx with e
        subst e
        exact hCh c rfl
      | none =>
        refine ⟨hT, hSu, hDv, ?_, hSe⟩
        intro x hx
        simp at hx
    · exact appendPlain_cit h' line

/-- A non-blank line transition preserves citation well-formedness: the only
    way a new section enters the state is through the section matcher. -/
theorem lineStep_cit {tn q : Nat} {st : BuilderState} (h : InvCit tn st)
    (raw : String) : InvCit tn (lineStep tn st raw q) := by
  simp only [lineStep]
  rcases hps : parse_subtitle_line (condenseWs (pyStrip raw)) with _ | ⟨num, tit⟩
  · rcases hdm : divisionMatch (condenseWs (pyStrip raw)) with _ | ⟨dnum, dtit⟩
    · rcases hcf : chapterFullMatch tn (condenseWs (pyStrip raw)) with _ | ⟨cit, ctit⟩
      · rcases hcs : chapterShortMatch tn (condenseWs (pyStrip raw)) with _ | cit
        · rcases hsm : sectionMatch tn (condenseWs (pyStrip raw)) with _ | ⟨scit, shead⟩
          · exact plainStep_cit h (pyStrip raw)
          · rcases hch : st.cur_chapter with _ | c
            · exact plainStep_cit h (pyStrip raw)
            · have h1 := finalize_section_cit h
              refine ⟨h1.1, h1.2.1, h1.2.2.1, h1.2.2.2.1, ?_⟩
              intro x hx
              injection hx with e
              subst e
              exact sectionMatch_shape hsm
        · have h1 := finalize_chapter_cit h
          refine ⟨h1.1, h1.2.1, h1.2.2.1, ?_, ?_⟩
          · intro x hx
            injection hx with e
            subst e
            intro y hy
            simp at hy
          · intro x hx
            simp at hx
      · have h1 := finalize_chapter_cit h
        refine ⟨h1.1, h1.2.1, h1.2.2.1, ?_, ?_⟩
        · intro x hx
          injection hx with e
          subst e
          intro y hy
          simp at hy
        · intro x hx
          simp at hx
    · rcases hsu : st.cur_subtitle with _ | sub
      · rcases hcf : chapterFullMatch tn (condenseWs (pyStrip raw)) with _ | ⟨cit, ctit⟩
        · rcases hcs : chapterShortMatch tn (condenseWs (pyStrip raw)) with _ | cit
          · rcases hsm : sectionMatch tn (condenseWs (pyStrip raw)) with _ | ⟨scit, shead⟩
            · exact plainStep_cit h (pyStrip raw)
            · rcases hch : st.cur_chapter with _ | c
              · exact plainStep_cit h (pyStrip raw)
              · have h1 := finalize_section_cit h
                refine ⟨h1.1, h1.2.1, h1.2.2.1, h1.2.2.2.1, ?_⟩
                intro x hx
                injection hx with e
                subst e
                exact sectionMatch_shape hsm
          · have h1 := finalize_chapter_cit h
            refine ⟨h1.1, h1.2.1, h1.2.2.1, ?_, ?_⟩
            · intro x hx
              injection hx with e
              subst e
              intro y hy
              simp at hy
            · intro x hx
              simp at hx
        · have h1 := finalize_chapter_cit h
          refine ⟨h1.1, h1.2.1, h1.2.2.1, ?_, ?_⟩
          · intro x hx
            injection hx with e
            subst e
            intro y hy
            simp at hy
          · intro x hx
            simp at hx
      · have h1 := finalize_division_cit h
        refine ⟨h1.1, h1.2.1, ?_, ?_, ?_⟩
        · intro x hx
          injection hx with e
          subst e
          intro y hy
          simp at hy
        · intro x hx
          simp at hx
        · intro x hx
          simp at hx
  · have h1 := finalize_subtitle_cit h
    refine ⟨h1.1, ?_, ?_, ?_, ?_⟩
    · intro x hx
      injection hx with e
      subst e
      refine ⟨?_, ?_⟩
      · intro y hy
        simp at hy
      · intro y hy
        simp at hy
    · intro x hx
      simp at hx
    · intro x hx
      simp at hx
    · intro x hx
      simp at hx

/-- One builder transition preserves citation well-formedness. -/
theorem step_cit {tn : Nat} {st : BuilderState} (h : InvCit tn st)
    (x : Option String × Nat) : InvCit tn (step tn st x) := by
  obtain ⟨l, q⟩ := x
  cases l with
  | none => exact blankStep_cit h
  | some raw => exact lineStep_cit h raw

/-- Processing any line stream preserves citation well-formedness. -/
theorem run_cit {tn : Nat} :
    ∀ (lines : List (Option String × Nat)) (st : BuilderState),
      InvCit tn st → InvCit tn (runLines tn st lines) := by
  intro lines
  induction lines with
  | nil => intro st h; exact h
  | cons x rest ih => intro st h; exact ih (step tn st x) (step_cit h x)

/-- The initial builder state is citation well-formed. -/
theorem initState_cit (tn : Nat) (label : String) (sp ep : Nat) :
    InvCit tn (initState label tn sp ep) :=
  ⟨fun sub hs => by simp [initState] at hs,
   fun sub hs => by simp [initState] at hs,
   fun d hd => by simp [initState] at hd,
   fun c hc => by simp [initState] at hc,
   fun s hs => by simp [initState] at hs⟩

/-- `clean_chapter` preserves citation well-formedness. -/
theorem clean_chapter_cit {tn : Nat} {c : Chapter} (h : chapCitOk tn c) :
    chapCitOk tn (clean_chapter c) :=
  fun s hs => h s (dedupSections_sub hs)

/-- `clean_subtitle` preserves citation well-formedness. -/
theorem clean_subtitle_cit {tn : Nat} {sub : Subtitle} (h : subCitOk tn sub) :
    subCitOk tn (clean_subtitle sub) := by
  refine ⟨?_, ?_⟩
  · intro d' hd'
    simp only [clean_subtitle, List.mem_map] at hd'
    obtain ⟨d, hd, rfl⟩ := hd'
    intro c' hc'
    simp only [List.mem_map] at hc'
    obtain ⟨c, hc, rfl⟩ := hc'
    exact clean_chapter_cit (h.1 d hd c hc)
  · intro c' hc'
    simp only [clean_subtitle, List.mem_map] at hc'
    obtain ⟨c, hc, rfl⟩ := hc'
    exact clean_chapter_cit (h.2 c hc)

/-- `clean_title` preserves citation well-formedness. -/
theorem clean_title_cit {tn : Nat} {t : TitleData} (h : titleCitOk tn t) :
    titleCitOk tn (clean_title t) := by
  intro sub' hs'
  simp only [clean_title] at hs'
  have h1 := sortByStartPage_mem _ hs'
  have h2 := dedupSubtitles_sub h1
  simp only [List.mem_map] at h2
  obtain ⟨sub, hsub, rfl⟩ := h2
  exact clean_subtitle_cit (h sub hsub)

/-- Sections collected from a citation-well-formed document all have
    well-formed citations. -/
theorem titleCitOk_sections {tn : Nat} {t : TitleData} (h : titleCitOk tn t) :
    ∀ s ∈ titleSections t, citationShape tn s.citation := by
  intro s hs
  simp only [titleSections, List.mem_flatten, List.mem_map] at hs
  obtain ⟨l, ⟨sub, hsub, hl⟩, hsl⟩ := hs
  subst hl
  simp only [subtitleSections] at hsl
  rcases List.mem_append.mp hsl with h' | h'
  · rcases List.mem_flatten.mp h' with ⟨cs, hcs, hscs⟩
    rcases List.mem_map.mp hcs with ⟨d, hd, hdd⟩
    subst hdd
    rcases List.mem_flatten.mp hscs with ⟨cs2, hcs2, hscs2⟩
    rcases List.mem_map.mp hcs2 with ⟨c, hc, hcc⟩
    subst hcc
    exact (h sub hsub).1 d hd c hc s hscs2
  · rcases List.mem_flatten.mp h' with ⟨cs, hcs, hscs⟩
    rcases List.mem_map.mp hcs with ⟨c, hc, hcc⟩
    subst hcc
    exact (h sub hsub).2 c hc s hscs

/-- C4: every Section in the finished tree has a citation that starts with
    the configured title number followed by a dot and at least two further
    dot-separated alphanumeric segments. -/
theorem claim_c4 (lines : List (Option String × Nat)) (label : String)
    (tn sp ep : Nat) :
    ∀ s ∈ titleSections (build_title_structure lines label tn sp ep),
      citationShape tn s.citation := by
  have h0 := initState_cit tn label sp ep
  have h1 := run_cit lines (initState label tn sp ep) h0
  have h2 := finalize_subtitle_cit h1
  exact titleCitOk_sections (clean_title_cit h2.1)

/-- C4 witness: the citation of the Scenario A section. -/
theorem claim_c4_witness :
    citationShape 23
      (Section.mk "23.42.010" "Scope." 1 1 ["This chapter applies to..."]).citation :=
  claim_c4 scenarioA "Title 23" 23 1 1
    (Section.mk "23.42.010" "Scope." 1 1 ["This chapter applies to..."])
    (by decide)

end Smc

